import Mathlib

/-!
# csim.c: a trace-driven simulator of a set-associative cache with LRU replacement

Shallow embedding of `src/csim.c`: `init_cache`, `access_cache`, and of `main` the test of
the arguments (line 136) and the replay loop.

Modelling conventions.
* A C array is a `List`; an access outside the array is undefined behaviour in C and is
  the result `none` here.  `access_cache` therefore returns an `Option`.
* `int valid` is only ever tested for truth and assigned `0` or `1`: it is a `Bool`.
* `unsigned long long tag` is a `Nat`.  The local `int tag` of `access_cache` is the
  two's-complement 32-bit truncation `to_int` of the shifted address; when it is compared with
  or stored into a line it is converted back to 64 bits (`int_to_ull`).
* `int timestamp` and the three `int` counters are `Int`, with exact `+ 1`: a signed overflow
  is undefined behaviour in C and needs more than two thousand million accesses; the
  statements below are about executions without it.
* The parameters `s`, `E`, `b` are naturals.  Shifts are exact: `addr >> n` is
  `addr / 2 ^ n` and `1 << s` is `2 ^ s`, which is what C computes for shift counts in
  their defined range (`s <= 30`, `s + b <= 63`); outside it C leaves the result undefined.
  In that range the set index fits an `int`, so it is kept as a natural.
-/

namespace Csim

/-! ## Data model (lines 12-35 of csim.c) -/

/-- Cache parameters: the globals `s`, `E`, `b`. -/
structure config where
  s : Nat
  E : Nat
  b : Nat
deriving DecidableEq, Repr

/-- Cache line structure `cache_line`. -/
structure cache_line where
  valid : Bool
  tag : Nat
  timestamp : Int
deriving DecidableEq, Repr

/-- Cache set structure `cache_set`: the array `lines`. -/
structure cache_set where
  lines : List cache_line
deriving DecidableEq, Repr

/-- Cache structure `cache`: the array `sets`. -/
structure cache where
  sets : List cache_set
deriving DecidableEq, Repr

/-- The global counters `hit_count`, `miss_count`, `eviction_count`. -/
structure counters where
  hit_count : Int
  miss_count : Int
  eviction_count : Int
deriving DecidableEq, Repr

/-- The mutable state of a run: the local `sim_cache` of `main` and the global counters. -/
structure sim_state where
  sim_cache : cache
  stats : counters
deriving DecidableEq, Repr

/-- The locals of `access_cache` that live across the scan. -/
structure locals where
  oldest_timestamp : Int
  oldest_line : Int
  line_found : Bool
deriving DecidableEq, Repr

/-! ## Integer conversions -/

/-- Conversion of an unsigned 64-bit value to `int` (two's complement, 32 bits), as in
`int tag = addr >> (s + b)`. -/
def to_int (n : Nat) : Int :=
  if n % 2 ^ 32 < 2 ^ 31 then ((n % 2 ^ 32 : Nat) : Int) else ((n % 2 ^ 32 : Nat) : Int) - 2 ^ 32

/-- Conversion of an `int` to `unsigned long long`, as in `line.tag == tag` and
`set.lines[i].tag = tag`. -/
def int_to_ull (z : Int) : Nat :=
  (z % 2 ^ 64).toNat

/-! ## init_cache (lines 44-60) -/

/-- The line written by the inner loop of `init_cache`. -/
def empty_line : cache_line :=
  { valid := false, tag := 0, timestamp := 0 }

/-- Function `init_cache`: `1 << S` sets of `E` lines, all invalid with tag and timestamp 0. -/
def init_cache (S E _B : Nat) : cache :=
  { sets := List.replicate (2 ^ S) { lines := List.replicate E empty_line } }

/-! ## access_cache (lines 65-107) -/

/-- The expression `(addr >> b) & ((1 << s) - 1)`. -/
def set_index (cfg : config) (addr : Nat) : Nat :=
  Nat.land (addr >>> cfg.b) (2 ^ cfg.s - 1)

/-- The local `int tag = addr >> (s + b)`. -/
def tag_int (cfg : config) (addr : Nat) : Int :=
  to_int (addr >>> (cfg.s + cfg.b))

/-- The value of the local `int tag` where it meets a 64-bit line tag. -/
def tag_of (cfg : config) (addr : Nat) : Nat :=
  int_to_ull (tag_int cfg addr)

/-- One iteration of the scan `for (int i = 0; i < E; i++)` on the line at index `i`:
returns the line as left in the set, the locals and the counters. -/
def scan_body (tag : Nat) (i : Nat) (line : cache_line) (loc : locals) (c : counters) :
    cache_line × locals × counters :=
  if line.valid && line.tag == tag then
    ({ line with timestamp := 0 },
     { loc with line_found := true },
     { c with hit_count := c.hit_count + 1 })
  else if !line.valid then
    if !loc.line_found then
      ({ valid := true, tag := tag, timestamp := 0 },
       { loc with line_found := true },
       { c with miss_count := c.miss_count + 1 })
    else
      (line, { loc with line_found := true }, c)
  else
    let ts := line.timestamp + 1
    if loc.oldest_timestamp < ts then
      ({ line with timestamp := ts },
       { loc with oldest_timestamp := ts, oldest_line := (i : Int) }, c)
    else
      ({ line with timestamp := ts }, loc, c)

/-- The scan from index `i` over the lines still to visit. -/
def scan (tag : Nat) : Nat → List cache_line → locals → counters →
    List cache_line × locals × counters
  | _, [], loc, c => ([], loc, c)
  | i, line :: rest, loc, c =>
    let r := scan_body tag i line loc c
    let q := scan tag (i + 1) rest r.2.1 r.2.2
    (r.1 :: q.1, q.2.1, q.2.2)

/-- The locals at loop entry: `oldest_timestamp = -1`, `oldest_line = -1`, `line_found = 0`. -/
def locals_init : locals :=
  { oldest_timestamp := -1, oldest_line := -1, line_found := false }

/-- The body of `access_cache` on the selected set, for the converted tag: the scan over lines
`0 .. E-1`, then the eviction branch `if (!line_found)`.  Reading past the end of `lines`, or
writing `lines[oldest_line]` with `oldest_line` outside the array, gives `none`. -/
def access_set (E : Nat) (tag : Nat) (set : cache_set) (c : counters) :
    Option (cache_set × counters) :=
  if set.lines.length < E then none
  else
    let r := scan tag 0 (set.lines.take E) locals_init c
    let lines := r.1 ++ set.lines.drop E
    if r.2.1.line_found then some ({ lines := lines }, r.2.2)
    else if r.2.1.oldest_line < 0 then none
    else
      match lines[r.2.1.oldest_line.toNat]? with
      | none => none
      | some line =>
        some ({ lines := lines.set r.2.1.oldest_line.toNat { line with tag := tag, timestamp := 0 } },
              { r.2.2 with miss_count := r.2.2.miss_count + 1,
                           eviction_count := r.2.2.eviction_count + 1 })

/-- The body of `access_cache` after the address has been decoded: select `sets[set_index]`
and run the scan on it. -/
def access_at (E : Nat) (idx : Nat) (tag : Nat) (st : sim_state) : Option sim_state :=
  match st.sim_cache.sets[idx]? with
  | none => none
  | some set =>
    match access_set E tag set st.stats with
    | none => none
    | some r => some { sim_cache := { sets := st.sim_cache.sets.set idx r.1 }, stats := r.2 }

/-- Function `access_cache`, on the value `addr` returned by `strtoull`. -/
def access_cache (cfg : config) (addr : Nat) (st : sim_state) : Option sim_state :=
  access_at cfg.E (set_index cfg addr) (tag_of cfg addr) st

/-! ## The replay loop of main (lines 153-168) -/

/-- A trace record as read by `sscanf`: the access type character and the address. -/
structure record where
  access_type : Char
  address : Nat
deriving DecidableEq, Repr

/-- One iteration of the `while (fgets ...)` loop of `main`. -/
def main_step (cfg : config) (r : record) (st : sim_state) : Option sim_state :=
  if r.access_type = 'L' ∨ r.access_type = 'S' ∨ r.access_type = 'M' then
    match access_cache cfg r.address st with
    | none => none
    | some st1 =>
      if r.access_type = 'M' then access_cache cfg r.address st1 else some st1
  else some st

/-- The replay loop of `main` over the records of the trace. -/
def main_loop (cfg : config) : List record → sim_state → Option sim_state
  | [], st => some st
  | r :: rest, st =>
    match main_step cfg r st with
    | none => none
    | some st1 => main_loop cfg rest st1

/-- The state in which `main` enters the loop: the cache of `init_cache`, counters at 0. -/
def init_state (cfg : config) : sim_state :=
  { sim_cache := init_cache cfg.s cfg.E cfg.b,
    stats := { hit_count := 0, miss_count := 0, eviction_count := 0 } }

/-! ## Specification vocabulary -/

/-- The effect of `set.lines[i].timestamp++` on a line. -/
def aged (c : cache_line) : cache_line :=
  { c with timestamp := c.timestamp + 1 }

/-- The effect of the hit branch on a line: `timestamp = 0`. -/
def refreshed (c : cache_line) : cache_line :=
  { c with timestamp := 0 }

/-- The line written by the fill branch. -/
def filled (tag : Nat) : cache_line :=
  { valid := true, tag := tag, timestamp := 0 }

/-- A line holds the requested tag: it is valid and its tag is the requested one. -/
def holds (tag : Nat) (c : cache_line) : Prop :=
  c.valid = true ∧ c.tag = tag

instance (tag : Nat) (c : cache_line) : Decidable (holds tag c) := by
  unfold holds; infer_instance

/-- The effect of the scan on a line once `line_found` is set: a line holding the tag is
refreshed, an invalid line is left alone, any other line is aged. -/
def after_found (tag : Nat) (c : cache_line) : cache_line :=
  if c.valid = true then (if c.tag = tag then refreshed c else aged c) else c

/-- The index written by the eviction branch, `oldest_line`; `none` when that branch is not
taken or `oldest_line` is still `-1`. -/
def victim_line (E : Nat) (tag : Nat) (set : cache_set) (c : counters) : Option Nat :=
  let r := scan tag 0 (set.lines.take E) locals_init c
  if r.2.1.line_found then none
  else if r.2.1.oldest_line < 0 then none
  else some r.2.1.oldest_line.toNat

/-- The tag that the eviction branch overwrites: the tag held by `lines[oldest_line]` when
`set.lines[oldest_line].tag = tag` is executed; `none` when that branch is not taken. -/
def evicted_tag (E : Nat) (tag : Nat) (set : cache_set) (c : counters) : Option Nat :=
  match victim_line E tag set c with
  | none => none
  | some k => (set.lines[k]?).map cache_line.tag

/-- A line ends the search of the scan: it is invalid or it carries the requested tag (the
scan sets `line_found` on it). -/
def resolves (tag : Nat) (c : cache_line) : Prop :=
  c.valid = false ∨ c.tag = tag

/-- The three outcomes of an access. -/
inductive outcome where
  | hit : outcome
  | miss : outcome
  | miss_evict (evicted : Nat) : outcome
deriving DecidableEq, Repr

/-- The counter update that goes with an outcome: a hit adds one hit, a miss one miss, a
miss with eviction one miss and one eviction. -/
def record_outcome (o : outcome) (c : counters) : counters :=
  match o with
  | outcome.hit => ⟨c.hit_count + 1, c.miss_count, c.eviction_count⟩
  | outcome.miss => ⟨c.hit_count, c.miss_count + 1, c.eviction_count⟩
  | outcome.miss_evict _ => ⟨c.hit_count, c.miss_count + 1, c.eviction_count + 1⟩

/-- The tag evicted by an outcome, if any. -/
def outcome.victim (o : outcome) : Option Nat :=
  match o with
  | outcome.miss_evict v => some v
  | _ => none

/-- The outcome read off the counters before and after a call of `access_cache`, with the
tag overwritten by the eviction branch; `none` when the counters moved in any other way. -/
def observed (c c1 : counters) (victim : Option Nat) : Option outcome :=
  if c1.hit_count = c.hit_count + 1 ∧ c1.miss_count = c.miss_count ∧
      c1.eviction_count = c.eviction_count then some outcome.hit
  else if c1.hit_count = c.hit_count ∧ c1.miss_count = c.miss_count + 1 ∧
      c1.eviction_count = c.eviction_count then some outcome.miss
  else if c1.hit_count = c.hit_count ∧ c1.miss_count = c.miss_count + 1 ∧
      c1.eviction_count = c.eviction_count + 1 then victim.map outcome.miss_evict
  else none

/-- One decoded access together with the outcome observed on it. -/
def access_outcome (E : Nat) (idx : Nat) (tag : Nat) (st : sim_state) :
    Option (outcome × sim_state) :=
  match st.sim_cache.sets[idx]? with
  | none => none
  | some set =>
    match access_at E idx tag st with
    | none => none
    | some st1 =>
      match observed st.stats st1.stats (evicted_tag E tag set st.stats) with
      | none => none
      | some o => some (o, st1)

/-- The outcomes observed on a sequence of decoded accesses `(set index, tag)`. -/
def outcomes (E : Nat) : List (Nat × Nat) → sim_state → Option (List outcome)
  | [], _ => some []
  | a :: rest, st =>
    match access_outcome E a.1 a.2 st with
    | none => none
    | some r =>
      match outcomes E rest r.2 with
      | none => none
      | some os => some (r.1 :: os)

/-- A sequence of addresses passed to `access_cache` one after the other. -/
def run (cfg : config) : List Nat → sim_state → Option sim_state
  | [], st => some st
  | a :: rest, st =>
    match access_cache cfg a st with
    | none => none
    | some st1 => run cfg rest st1

/-- A state is reachable when some sequence of calls of `access_cache` leads to it from the
state built by `init_cache` with the counters at 0. -/
def reachable (cfg : config) (st : sim_state) : Prop :=
  ∃ addrs : List Nat, run cfg addrs (init_state cfg) = some st

/-! ## Reference model: classic LRU

Written from the words of the specification, not from the code: per set, a list of at
most `E` tags ordered by recency, most recent first. -/

/-- One access of the reference model: a hit moves the tag to the front; a miss inserts at
the front and, when the list already holds `E` tags, removes the last one. -/
def lru_access (E : Nat) (t : Nat) (l : List Nat) : outcome × List Nat :=
  if t ∈ l then (outcome.hit, t :: l.erase t)
  else if l.length < E then (outcome.miss, t :: l)
  else (outcome.miss_evict ((t :: l).getLast (List.cons_ne_nil t l)), (t :: l).dropLast)

/-- The outcomes of the reference model on a sequence of accesses `(set index, tag)`, from
the recency lists `m` of the sets. -/
def lru_outcomes (E : Nat) : List (Nat × Nat) → (Nat → List Nat) → List outcome
  | [], _ => []
  | a :: rest, m =>
    (lru_access E a.2 (m a.1)).1 ::
      lru_outcomes E rest (Function.update m a.1 (lru_access E a.2 (m a.1)).2)

/-! ## Invariant of the sets -/

/-- The set `set` of `E` lines stands for the recency list `l`: its valid lines come first,
the other lines are as `init_cache` left them, and the valid lines, listed by increasing
timestamp, carry the tags of `l` in order; timestamps are not negative and tags not
repeated. -/
def tracks (E : Nat) (set : cache_set) (l : List Nat) : Prop :=
  ∃ (vs lp : List cache_line) (n : Nat),
    set.lines = vs ++ List.replicate n empty_line ∧ vs.length + n = E ∧
    vs.Perm lp ∧ lp.map cache_line.tag = l ∧
    lp.Pairwise (fun a b => a.timestamp < b.timestamp) ∧ l.Nodup ∧
    ∀ x ∈ lp, x.valid = true ∧ 0 ≤ x.timestamp

/-- Every set of the cache stands for the recency list that `m` gives to its index, and the
cache has `S` sets. -/
def cache_tracks (E S : Nat) (st : sim_state) (m : Nat → List Nat) : Prop :=
  st.sim_cache.sets.length = S ∧
    ∀ idx set, st.sim_cache.sets[idx]? = some set → tracks E set (m idx)

/-! ## Vocabulary for runs and for the start of main -/

/-- A sequence of decoded accesses `(set index, tag)` applied one after the other. -/
def run_at (E : Nat) : List (Nat × Nat) → sim_state → Option sim_state
  | [], st => some st
  | a :: rest, st =>
    match access_at E a.1 a.2 st with
    | none => none
    | some st1 => run_at E rest st1

/-- The number of valid lines of a set. -/
def valid_count (set : cache_set) : Nat :=
  set.lines.countP (fun x => x.valid)

/-- The number of valid lines in the whole cache. -/
def valid_lines (c : cache) : Nat :=
  (c.sets.map valid_count).sum

/-- How `main` ends: the two fatal exits, or the replay of the trace (whose result is `none`
when an access left the arrays). -/
inductive main_result where
  | missing_arguments : main_result
  | trace_unavailable : main_result
  | replayed (final : Option sim_state) : main_result
deriving DecidableEq, Repr

/-- The test of line 136 of `main`, on the values left in `s`, `E`, `b` by `atoi` and on
whether `trace_file` is still `NULL`: `s == 0 || E == 0 || b == 0 || trace_file == 0`. -/
def arguments_missing (s E b : Int) (trace_file : Option String) : Bool :=
  s == 0 || E == 0 || b == 0 || trace_file.isNone

/-- Function `main` after the option loop: the test of line 136, `init_cache`, `fopen` (whose
result is `trace`, `none` for `NULL`) and the replay loop.  The parameters reach `init_cache`
and `access_cache` as they are; the replay is meaningful for positive values only, since C
gives no meaning to a negative shift count or allocation size. -/
def main (s E b : Int) (trace_file : Option String) (trace : Option (List record)) :
    main_result :=
  if arguments_missing s E b trace_file then main_result.missing_arguments
  else
    match trace with
    | none => main_result.trace_unavailable
    | some records =>
      main_result.replayed
        (main_loop ⟨s.toNat, E.toNat, b.toNat⟩ records (init_state ⟨s.toNat, E.toNat, b.toNat⟩))

/-! ## The scan, line by line -/

theorem scan_length (tag : Nat) (xs : List cache_line) :
    ∀ (i : Nat) (loc : locals) (c : counters), (scan tag i xs loc c).1.length = xs.length := by
  induction xs with
  | nil => intro i loc c; rfl
  | cons x xs ih => intro i loc c; simp [scan, ih]

theorem scan_append (tag : Nat) (xs ys : List cache_line) :
    ∀ (i : Nat) (loc : locals) (c : counters),
      scan tag i (xs ++ ys) loc c =
        ((scan tag i xs loc c).1 ++
            (scan tag (i + xs.length) ys (scan tag i xs loc c).2.1 (scan tag i xs loc c).2.2).1,
          (scan tag (i + xs.length) ys (scan tag i xs loc c).2.1 (scan tag i xs loc c).2.2).2) := by
  induction xs with
  | nil => intro i loc c; simp [scan]
  | cons x xs ih =>
    intro i loc c
    have e : i + 1 + xs.length = i + (xs.length + 1) := by omega
    show scan tag i (x :: (xs ++ ys)) loc c = _
    simp only [scan, List.length_cons]
    rw [ih, e]
    rfl

/-- An iteration on a valid line that does not hold the tag ages it and touches neither
`line_found` nor the counters. -/
theorem scan_body_other (tag i : Nat) (x : cache_line) (loc : locals) (c : counters)
    (hv : x.valid = true) (ht : x.tag ≠ tag) :
    (scan_body tag i x loc c).1 = aged x ∧
      (scan_body tag i x loc c).2.1.line_found = loc.line_found ∧
      (scan_body tag i x loc c).2.2 = c := by
  unfold scan_body
  simp only [hv, Bool.true_and, beq_iff_eq, ht, if_false, Bool.not_true, Bool.false_eq_true]
  split <;> simp [aged, hv]

/-- An iteration on a line that holds the tag. -/
theorem scan_body_hit (tag i : Nat) (x : cache_line) (loc : locals) (c : counters)
    (hv : x.valid = true) (ht : x.tag = tag) :
    scan_body tag i x loc c =
      (refreshed x, ⟨loc.oldest_timestamp, loc.oldest_line, true⟩,
        ⟨c.hit_count + 1, c.miss_count, c.eviction_count⟩) := by
  unfold scan_body
  simp [hv, ht, refreshed]

/-- An iteration on an invalid line when no line has been found yet. -/
theorem scan_body_fill (tag i : Nat) (x : cache_line) (loc : locals) (c : counters)
    (hv : x.valid = false) (hf : loc.line_found = false) :
    scan_body tag i x loc c =
      (filled tag, ⟨loc.oldest_timestamp, loc.oldest_line, true⟩,
        ⟨c.hit_count, c.miss_count + 1, c.eviction_count⟩) := by
  unfold scan_body
  simp [hv, hf, filled]

/-- An iteration on an invalid line when a line has already been found. -/
theorem scan_body_skip (tag i : Nat) (x : cache_line) (loc : locals) (c : counters)
    (hv : x.valid = false) (hf : loc.line_found = true) :
    scan_body tag i x loc c = (x, loc, c) := by
  unfold scan_body
  simp [hv, hf]
  cases loc; simp_all

/-- Over lines that are valid and do not hold the tag, the scan ages every line and leaves
`line_found` and the counters alone. -/
theorem scan_others (tag : Nat) (xs : List cache_line)
    (h : ∀ x ∈ xs, x.valid = true ∧ x.tag ≠ tag) :
    ∀ (i : Nat) (loc : locals) (c : counters),
      (scan tag i xs loc c).1 = xs.map aged ∧
        (scan tag i xs loc c).2.1.line_found = loc.line_found ∧
        (scan tag i xs loc c).2.2 = c := by
  induction xs with
  | nil => intro i loc c; simp [scan]
  | cons x xs ih =>
    intro i loc c
    have hx := h x (List.mem_cons_self _ _)
    obtain ⟨b1, b2, b3⟩ := scan_body_other tag i x loc c hx.1 hx.2
    have ih2 := ih (fun y hy => h y (List.mem_cons_of_mem _ hy)) (i + 1)
      (scan_body tag i x loc c).2.1 (scan_body tag i x loc c).2.2
    simp only [scan, List.map_cons]
    refine ⟨?_, ?_, ?_⟩
    · rw [ih2.1, b1]
    · rw [ih2.2.1, b2]
    · rw [ih2.2.2, b3]

/-- Once `line_found` is set, the scan over lines of which none holds the tag applies
`after_found` to every line and changes no counter. -/
theorem scan_found (tag : Nat) (xs : List cache_line)
    (h : ∀ x ∈ xs, ¬ holds tag x) :
    ∀ (i : Nat) (loc : locals) (c : counters), loc.line_found = true →
      (scan tag i xs loc c).1 = xs.map (after_found tag) ∧
        (scan tag i xs loc c).2.1.line_found = true ∧
        (scan tag i xs loc c).2.2 = c := by
  induction xs with
  | nil => intro i loc c hf; simp [scan, hf]
  | cons x xs ih =>
    intro i loc c hf
    have hx := h x (List.mem_cons_self _ _)
    have hrest := fun y hy => h y (List.mem_cons_of_mem x hy)
    simp only [scan, List.map_cons]
    cases hv : x.valid with
    | false =>
      rw [scan_body_skip tag i x loc c hv hf]
      have ih2 := ih hrest (i + 1) loc c hf
      refine ⟨?_, ih2.2.1, ih2.2.2⟩
      rw [ih2.1]; simp [after_found, hv]
    | true =>
      have ht : x.tag ≠ tag := fun e => hx ⟨hv, e⟩
      obtain ⟨b1, b2, b3⟩ := scan_body_other tag i x loc c hv ht
      have ih2 := ih hrest (i + 1) (scan_body tag i x loc c).2.1 (scan_body tag i x loc c).2.2
        (by rw [b2]; exact hf)
      refine ⟨?_, ih2.2.1, ?_⟩
      · rw [ih2.1, b1]; simp [after_found, hv, ht]
      · rw [ih2.2.2, b3]

/-- Over lines that are valid and do not hold the tag, `oldest_timestamp` ends as the largest
aged timestamp seen (if it exceeds the initial value) and `oldest_line` as the first index
where that value is reached. -/
theorem scan_oldest (tag : Nat) (xs : List cache_line)
    (h : ∀ x ∈ xs, x.valid = true ∧ x.tag ≠ tag) :
    ∀ (i : Nat) (loc : locals) (c : counters),
      (∀ x ∈ xs, x.timestamp + 1 ≤ (scan tag i xs loc c).2.1.oldest_timestamp) ∧
      loc.oldest_timestamp ≤ (scan tag i xs loc c).2.1.oldest_timestamp ∧
      (((scan tag i xs loc c).2.1.oldest_timestamp = loc.oldest_timestamp ∧
          (scan tag i xs loc c).2.1.oldest_line = loc.oldest_line) ∨
        (∃ k x, xs[k]? = some x ∧
          (scan tag i xs loc c).2.1.oldest_line = ((i + k : Nat) : Int) ∧
          x.timestamp + 1 = (scan tag i xs loc c).2.1.oldest_timestamp ∧
          loc.oldest_timestamp < (scan tag i xs loc c).2.1.oldest_timestamp ∧
          ∀ j y, j < k → xs[j]? = some y →
            y.timestamp + 1 < (scan tag i xs loc c).2.1.oldest_timestamp)) := by
  induction xs with
  | nil => intro i loc c; simp [scan]
  | cons x xs ih =>
    intro i loc c
    have hx := h x (List.mem_cons_self _ _)
    have hrest := fun y hy => h y (List.mem_cons_of_mem x hy)
    have hb : ((scan_body tag i x loc c).2.1.oldest_timestamp = x.timestamp + 1 ∧
        (scan_body tag i x loc c).2.1.oldest_line = (i : Int) ∧
        loc.oldest_timestamp < x.timestamp + 1) ∨
        ((scan_body tag i x loc c).2.1 = loc ∧ x.timestamp + 1 ≤ loc.oldest_timestamp) := by
      unfold scan_body
      simp only [hx.1, Bool.true_and, beq_iff_eq, hx.2, if_false, Bool.not_true,
        Bool.false_eq_true]
      by_cases hlt : loc.oldest_timestamp < x.timestamp + 1
      · left; simp [hlt]
      · right; simp only [hlt, if_false]; exact ⟨trivial, by omega⟩
    obtain ⟨ih1, ih2, ih3⟩ := ih hrest (i + 1) (scan_body tag i x loc c).2.1
      (scan_body tag i x loc c).2.2
    simp only [scan]
    set loc1 := (scan_body tag i x loc c).2.1 with hloc1
    set r := scan tag (i + 1) xs loc1 (scan_body tag i x loc c).2.2 with hr
    have hx1 : x.timestamp + 1 ≤ loc1.oldest_timestamp := by
      rcases hb with ⟨e, _, _⟩ | ⟨e, hle⟩
      · omega
      · rw [e]; exact hle
    have hl1 : loc.oldest_timestamp ≤ loc1.oldest_timestamp := by
      rcases hb with ⟨e, _, hlt⟩ | ⟨e, _⟩
      · omega
      · rw [e]
    refine ⟨?_, by omega, ?_⟩
    · intro y hy
      rcases List.mem_cons.1 hy with e | hm
      · subst e; omega
      · exact ih1 y hm
    · rcases ih3 with ⟨e1, e2⟩ | ⟨k, y, hk, e1, e2, e3, e4⟩
      · rcases hb with ⟨f1, f2, f3⟩ | ⟨f1, _⟩
        · right
          refine ⟨0, x, by simp, ?_, by omega, by omega, ?_⟩
          · rw [e2, f2]; simp
          · intro j y hj; omega
        · left
          rw [e1, e2, f1]; exact ⟨rfl, rfl⟩
      · right
        refine ⟨k + 1, y, by simpa using hk, ?_, e2, by omega, ?_⟩
        · rw [e1]; push_cast; ring
        · intro j z hj hz
          cases j with
          | zero =>
            simp at hz; subst hz; omega
          | succ j =>
            exact e4 j z (by omega) (by simpa using hz)

/-! ## The three outcomes of an access on a correctly sized set -/

/-- The scan when the first line that is not simply aged holds the tag and no later line
holds it. -/
theorem scan_hit (tag : Nat) (pre post : List cache_line) (m : cache_line) (c : counters)
    (hpre : ∀ x ∈ pre, x.valid = true ∧ x.tag ≠ tag) (hm : holds tag m)
    (hpost : ∀ x ∈ post, ¬ holds tag x) :
    ∃ ot ol, scan tag 0 (pre ++ m :: post) locals_init c =
      (pre.map aged ++ refreshed m :: post.map (after_found tag), ⟨ot, ol, true⟩,
        ⟨c.hit_count + 1, c.miss_count, c.eviction_count⟩) := by
  obtain ⟨p1, p2, p3⟩ := scan_others tag pre hpre 0 locals_init c
  rw [scan_append]
  rcases h1 : scan tag 0 pre locals_init c with ⟨l1, loc1, c1⟩
  rw [h1] at p1 p2 p3
  simp only at p1 p2 p3
  subst p1 p3
  simp only [scan, scan_body_hit _ _ _ _ _ hm.1 hm.2]
  obtain ⟨q1, q2, q3⟩ := scan_found tag post hpost (0 + pre.length + 1)
    ⟨loc1.oldest_timestamp, loc1.oldest_line, true⟩
    ⟨c1.hit_count + 1, c1.miss_count, c1.eviction_count⟩ rfl
  rcases h2 : scan tag (0 + pre.length + 1) post ⟨loc1.oldest_timestamp, loc1.oldest_line, true⟩
    ⟨c1.hit_count + 1, c1.miss_count, c1.eviction_count⟩ with ⟨l2, loc2, c2⟩
  rw [h2] at q1 q2 q3
  simp only at q1 q2 q3
  subst q1 q3
  refine ⟨loc2.oldest_timestamp, loc2.oldest_line, ?_⟩
  cases loc2
  simp only at q2
  subst q2
  rfl

/-- The scan when the first line that is not simply aged is invalid and no later line holds
the tag. -/
theorem scan_fill (tag : Nat) (pre post : List cache_line) (v : cache_line) (c : counters)
    (hpre : ∀ x ∈ pre, x.valid = true ∧ x.tag ≠ tag) (hv : v.valid = false)
    (hpost : ∀ x ∈ post, ¬ holds tag x) :
    ∃ ot ol, scan tag 0 (pre ++ v :: post) locals_init c =
      (pre.map aged ++ filled tag :: post.map (after_found tag), ⟨ot, ol, true⟩,
        ⟨c.hit_count, c.miss_count + 1, c.eviction_count⟩) := by
  obtain ⟨p1, p2, p3⟩ := scan_others tag pre hpre 0 locals_init c
  rw [scan_append]
  rcases h1 : scan tag 0 pre locals_init c with ⟨l1, loc1, c1⟩
  rw [h1] at p1 p2 p3
  simp only at p1 p2 p3
  subst p1 p3
  simp only [scan, scan_body_fill _ _ _ _ _ hv p2]
  obtain ⟨q1, q2, q3⟩ := scan_found tag post hpost (0 + pre.length + 1)
    ⟨loc1.oldest_timestamp, loc1.oldest_line, true⟩
    ⟨c1.hit_count, c1.miss_count + 1, c1.eviction_count⟩ rfl
  rcases h2 : scan tag (0 + pre.length + 1) post ⟨loc1.oldest_timestamp, loc1.oldest_line, true⟩
    ⟨c1.hit_count, c1.miss_count + 1, c1.eviction_count⟩ with ⟨l2, loc2, c2⟩
  rw [h2] at q1 q2 q3
  simp only at q1 q2 q3
  subst q1 q3
  refine ⟨loc2.oldest_timestamp, loc2.oldest_line, ?_⟩
  cases loc2
  simp only at q2
  subst q2
  rfl

/-- The scan when every line is valid, none holds the tag and no timestamp is negative:
`line_found` stays unset and `oldest_line` is the first line of maximal timestamp. -/
theorem scan_evict (tag : Nat) (xs : List cache_line) (c : counters) (hne : xs ≠ [])
    (hall : ∀ x ∈ xs, x.valid = true ∧ x.tag ≠ tag)
    (hts : ∀ x ∈ xs, 0 ≤ x.timestamp) :
    ∃ (k : Nat) (v : cache_line) (ot : Int),
      xs[k]? = some v ∧ (∀ y ∈ xs, y.timestamp ≤ v.timestamp) ∧
      (∀ (j : Nat) (y : cache_line), j < k → xs[j]? = some y → y.timestamp < v.timestamp) ∧
      scan tag 0 xs locals_init c = (xs.map aged, ⟨ot, (k : Int), false⟩, c) := by
  obtain ⟨p1, p2, p3⟩ := scan_others tag xs hall 0 locals_init c
  obtain ⟨o1, o2, o3⟩ := scan_oldest tag xs hall 0 locals_init c
  obtain ⟨x0, hx0⟩ := List.exists_mem_of_ne_nil xs hne
  have hpos : 0 < (scan tag 0 xs locals_init c).2.1.oldest_timestamp := by
    have := o1 x0 hx0
    have := hts x0 hx0
    omega
  rcases o3 with ⟨e1, _⟩ | ⟨k, v, hk, e1, e2, e3, e4⟩
  · exfalso
    rw [e1] at hpos
    simp [locals_init] at hpos
  · refine ⟨k, v, (scan tag 0 xs locals_init c).2.1.oldest_timestamp, hk, ?_, ?_, ?_⟩
    · intro y hy
      have := o1 y hy
      omega
    · intro j y hj hy
      have := e4 j y hj hy
      omega
    · rcases h1 : scan tag 0 xs locals_init c with ⟨l1, loc1, c1⟩
      rw [h1] at p1 p2 p3 e1
      simp only at p1 p2 p3 e1
      subst p1 p3
      cases loc1
      simp only [locals_init] at p2 e1
      subst p2 e1
      simp

/-- Hit on a correctly sized set. -/
theorem access_set_hit (E tag : Nat) (pre post : List cache_line) (m : cache_line)
    (c : counters) (hlen : (pre ++ m :: post).length = E)
    (hpre : ∀ x ∈ pre, x.valid = true ∧ x.tag ≠ tag) (hm : holds tag m)
    (hpost : ∀ x ∈ post, ¬ holds tag x) :
    access_set E tag { lines := pre ++ m :: post } c =
        some ({ lines := pre.map aged ++ refreshed m :: post.map (after_found tag) },
              ⟨c.hit_count + 1, c.miss_count, c.eviction_count⟩) ∧
      evicted_tag E tag { lines := pre ++ m :: post } c = none ∧
      victim_line E tag { lines := pre ++ m :: post } c = none := by
  obtain ⟨ot, ol, h⟩ := scan_hit tag pre post m c hpre hm hpost
  unfold access_set evicted_tag victim_line
  simp only [← hlen, lt_irrefl, if_false, List.take_length, List.drop_length,
    List.append_nil, h, if_true, and_self]

/-- Miss into a free slot on a correctly sized set. -/
theorem access_set_fill (E tag : Nat) (pre post : List cache_line) (v : cache_line)
    (c : counters) (hlen : (pre ++ v :: post).length = E)
    (hpre : ∀ x ∈ pre, x.valid = true ∧ x.tag ≠ tag) (hv : v.valid = false)
    (hpost : ∀ x ∈ post, ¬ holds tag x) :
    access_set E tag { lines := pre ++ v :: post } c =
        some ({ lines := pre.map aged ++ filled tag :: post.map (after_found tag) },
              ⟨c.hit_count, c.miss_count + 1, c.eviction_count⟩) ∧
      evicted_tag E tag { lines := pre ++ v :: post } c = none ∧
      victim_line E tag { lines := pre ++ v :: post } c = none := by
  obtain ⟨ot, ol, h⟩ := scan_fill tag pre post v c hpre hv hpost
  unfold access_set evicted_tag victim_line
  simp only [← hlen, lt_irrefl, if_false, List.take_length, List.drop_length,
    List.append_nil, h, if_true, and_self]

/-- Miss with eviction on a correctly sized set of at least one line: every line is valid,
none holds the tag, timestamps are not negative.  The victim is the first line of maximal
timestamp. -/
theorem access_set_evict (E tag : Nat) (xs : List cache_line) (c : counters)
    (hlen : xs.length = E) (hE : 1 ≤ E)
    (hall : ∀ x ∈ xs, x.valid = true ∧ x.tag ≠ tag)
    (hts : ∀ x ∈ xs, 0 ≤ x.timestamp) :
    ∃ k v, xs[k]? = some v ∧ (∀ y ∈ xs, y.timestamp ≤ v.timestamp) ∧
      (∀ j y, j < k → xs[j]? = some y → y.timestamp < v.timestamp) ∧
      access_set E tag { lines := xs } c =
        some ({ lines := (xs.map aged).set k (filled tag) },
              ⟨c.hit_count, c.miss_count + 1, c.eviction_count + 1⟩) ∧
      victim_line E tag { lines := xs } c = some k ∧
      evicted_tag E tag { lines := xs } c = some v.tag := by
  have hne : xs ≠ [] := by
    intro e; rw [e] at hlen; simp at hlen; omega
  obtain ⟨k, v, ot, hk, h1, h2, h3⟩ := scan_evict tag xs c hne hall hts
  have hvl : victim_line E tag { lines := xs } c = some k := by
    unfold victim_line
    simp only [← hlen, List.take_length, h3]
    simp
  refine ⟨k, v, hk, h1, h2, ?_, hvl, ?_⟩
  · have hv : v.valid = true := (hall v (List.getElem?_mem hk)).1
    unfold access_set
    simp only [← hlen, lt_irrefl, if_false, List.take_length, List.drop_length,
      List.append_nil, h3]
    simp [hk, aged, filled, hv]
  · unfold evicted_tag
    rw [hvl]
    simp [hk]

/-! ## The sets of a run stand for recency lists -/

theorem perm_split {α : Type} {pre post lp : List α} {m : α}
    (h : (pre ++ m :: post).Perm lp) :
    ∃ A B, lp = A ++ m :: B ∧ (pre ++ post).Perm (A ++ B) := by
  have hm : m ∈ lp := h.mem_iff.1 (by simp)
  obtain ⟨A, B, e⟩ := List.append_of_mem hm
  refine ⟨A, B, e, ?_⟩
  subst e
  exact ((List.perm_middle.symm.trans h).trans List.perm_middle).cons_inv

theorem map_after_found_others (t : Nat) (xs : List cache_line)
    (h : ∀ x ∈ xs, x.valid = true ∧ x.tag ≠ t) :
    xs.map (after_found t) = xs.map aged := by
  apply List.map_congr_left
  intro x hx
  simp [after_found, (h x hx).1, (h x hx).2]

theorem map_after_found_empty (t n : Nat) :
    (List.replicate n empty_line).map (after_found t) = List.replicate n empty_line := by
  simp [after_found, empty_line]

theorem map_tag_aged (xs : List cache_line) :
    (xs.map aged).map cache_line.tag = xs.map cache_line.tag := by
  simp [List.map_map, Function.comp_def, aged]

theorem observed_record (o : outcome) (c : counters) :
    observed c (record_outcome o c) o.victim = some o := by
  cases o <;> simp [observed, record_outcome, outcome.victim]

theorem split_at_index {α : Type} {xs : List α} {k : Nat} {v : α} (h : xs[k]? = some v) :
    ∃ pre post, xs = pre ++ v :: post ∧ pre.length = k := by
  obtain ⟨hk, e⟩ := List.getElem?_eq_some.1 h
  refine ⟨xs.take k, xs.drop (k + 1), ?_, ?_⟩
  · rw [← e, List.getElem_cons_drop, List.take_append_drop]
  · simp; omega

theorem set_at_split {α : Type} (pre post : List α) (v w : α) :
    (pre ++ v :: post).set pre.length w = pre ++ w :: post := by
  rw [List.set_append_right _ _ (le_refl _)]
  simp

/-- One access to a set that stands for the recency list `l`: the scan succeeds, moves the
counters as the outcome of the reference model says, overwrites the tag that the reference
model evicts, and leaves a set that stands for the new recency list and holds the tag. -/
theorem tracks_step (E t : Nat) (set : cache_set) (l : List Nat) (c : counters)
    (hE : 1 ≤ E) (h : tracks E set l) :
    ∃ set1, access_set E t set c = some (set1, record_outcome (lru_access E t l).1 c) ∧
      evicted_tag E t set c = (lru_access E t l).1.victim ∧
      tracks E set1 (lru_access E t l).2 ∧
      (∃ x ∈ set1.lines, holds t x) ∧
      ((lru_access E t l).1 = outcome.hit ↔ ∃ x ∈ set.lines, holds t x) ∧
      ((∃ v, (lru_access E t l).1 = outcome.miss_evict v) ↔
        (∀ x ∈ set.lines, x.valid = true) ∧ ∀ x ∈ set.lines, ¬ holds t x) := by
  obtain ⟨vs, lp, n, hl, hlen, hperm, hmap, hpw, hnd, hval⟩ := h
  have hvs : ∀ x ∈ vs, x.valid = true ∧ 0 ≤ x.timestamp :=
    fun x hx => hval x (hperm.mem_iff.1 hx)
  have hvtags : (vs.map cache_line.tag).Nodup := by
    rw [(hperm.map _).nodup_iff, hmap]; exact hnd
  have hmem : ∀ u, u ∈ l ↔ ∃ x ∈ vs, x.tag = u := by
    intro u
    rw [← hmap, List.mem_map]
    constructor
    · rintro ⟨x, hx, e⟩; exact ⟨x, hperm.mem_iff.2 hx, e⟩
    · rintro ⟨x, hx, e⟩; exact ⟨x, hperm.mem_iff.1 hx, e⟩
  have hlenl : l.length = vs.length := by
    rw [← hmap, List.length_map, hperm.length_eq]
  have hempty : ∀ x ∈ List.replicate n empty_line, ¬ holds t x := by
    intro x hx
    rw [(List.mem_replicate.1 hx).2]
    simp [holds, empty_line]
  obtain ⟨lines⟩ := set
  simp only at hl
  subst hl
  by_cases ht : t ∈ l
  · -- the tag is in the recency list: hit
    obtain ⟨m, hmvs, hmt⟩ := (hmem t).1 ht
    obtain ⟨pre, post, hsplit⟩ := List.append_of_mem hmvs
    subst hsplit
    have hnd2 : (m.tag :: (pre.map cache_line.tag ++ post.map cache_line.tag)).Nodup := by
      apply List.nodup_middle.1
      simpa using hvtags
    have hnot : ∀ x ∈ pre ++ post, x.valid = true ∧ x.tag ≠ t := by
      intro x hx
      refine ⟨(hvs x ?_).1, ?_⟩
      · rcases List.mem_append.1 hx with h1 | h1
        · exact List.mem_append_left _ h1
        · exact List.mem_append_right _ (List.mem_cons_of_mem _ h1)
      · intro e
        apply (List.nodup_cons.1 hnd2).1
        rw [hmt, ← e, ← List.map_append]
        exact List.mem_map_of_mem _ hx
    have hpre : ∀ x ∈ pre, x.valid = true ∧ x.tag ≠ t :=
      fun x hx => hnot x (List.mem_append_left _ hx)
    have hpost : ∀ x ∈ post, x.valid = true ∧ x.tag ≠ t :=
      fun x hx => hnot x (List.mem_append_right _ hx)
    have hm : holds t m := ⟨(hvs m hmvs).1, hmt⟩
    have hpost2 : ∀ x ∈ post ++ List.replicate n empty_line, ¬ holds t x := by
      intro x hx
      rcases List.mem_append.1 hx with h1 | h1
      · exact fun hh => (hpost x h1).2 hh.2
      · exact hempty x h1
    have hlines : pre ++ m :: post ++ List.replicate n empty_line =
        pre ++ m :: (post ++ List.replicate n empty_line) := by simp
    have hacc := access_set_hit E t pre (post ++ List.replicate n empty_line) m c
      (by rw [← hlines, List.length_append, List.length_replicate]; exact hlen) hpre hm hpost2
    have hlru : lru_access E t l = (outcome.hit, t :: l.erase t) := by
      simp [lru_access, ht]
    obtain ⟨A, B, hlp, hAB⟩ := perm_split hperm
    subst hlp
    have hlAB : l = A.map cache_line.tag ++ t :: B.map cache_line.tag := by
      rw [← hmap]; simp [hmt]
    have hndl : (t :: (A.map cache_line.tag ++ B.map cache_line.tag)).Nodup := by
      apply List.nodup_middle.1
      rw [← hlAB]; exact hnd
    have herase : l.erase t = (A ++ B).map cache_line.tag := by
      have hA : t ∉ A.map cache_line.tag := fun hh =>
        (List.nodup_cons.1 hndl).1 (List.mem_append_left _ hh)
      rw [hlAB, List.erase_append_right _ hA, List.erase_cons_head, List.map_append]
    rw [hlru]
    refine ⟨{ lines := pre.map aged ++ refreshed m ::
      (post ++ List.replicate n empty_line).map (after_found t) }, ?_, ?_, ?_, ?_, ?_, ?_⟩
    · rw [hlines]; exact hacc.1
    · rw [hlines]; exact hacc.2.1
    · refine ⟨pre.map aged ++ refreshed m :: post.map aged,
        refreshed m :: (A ++ B).map aged, n, ?_, ?_, ?_, ?_, ?_, ?_, ?_⟩
      · simp only [List.map_append, map_after_found_others t post hpost,
          map_after_found_empty, List.append_assoc, List.cons_append]
      · simpa using hlen
      · refine List.perm_middle.trans (List.Perm.cons _ ?_)
        rw [← List.map_append]
        exact hAB.map _
      · simp only [List.map_cons, List.map_map, herase, refreshed, hmt]
        congr 1
      · rw [List.pairwise_cons]
        refine ⟨?_, ?_⟩
        · intro y hy
          obtain ⟨x, hx, e⟩ := List.mem_map.1 hy
          have hx2 : x ∈ A ++ m :: B := by
            rcases List.mem_append.1 hx with h1 | h1
            · exact List.mem_append_left _ h1
            · exact List.mem_append_right _ (List.mem_cons_of_mem _ h1)
          have := (hval x hx2).2
          rw [← e]; simp only [refreshed, aged]; omega
        · rw [List.pairwise_map]
          have hsub : (A ++ B).Sublist (A ++ m :: B) :=
            List.Sublist.append (List.Sublist.refl A) (List.sublist_cons_self m B)
          refine (hpw.sublist hsub).imp ?_
          intro a b hab
          simp only [aged]; omega
      · rw [herase, List.map_append]; exact hndl
      · intro x hx
        rcases List.mem_cons.1 hx with e | h1
        · rw [e]; exact ⟨hm.1, le_refl _⟩
        · obtain ⟨y, hy, e⟩ := List.mem_map.1 h1
          have hy2 : y ∈ A ++ m :: B := by
            rcases List.mem_append.1 hy with h2 | h2
            · exact List.mem_append_left _ h2
            · exact List.mem_append_right _ (List.mem_cons_of_mem _ h2)
          have := hval y hy2
          rw [← e]; simp only [aged]; exact ⟨this.1, by omega⟩
    · exact ⟨refreshed m, by simp, ⟨hm.1, hm.2⟩⟩
    · simp only [true_iff]
      exact ⟨m, by simp, hm⟩
    · simp only [reduceCtorEq, exists_false, false_iff, not_and]
      intro _ hh
      exact hh m (by simp) hm
  · -- the tag is not in the recency list: miss
    have hnone : ∀ x ∈ vs, x.valid = true ∧ x.tag ≠ t :=
      fun x hx => ⟨(hvs x hx).1, fun e => ht ((hmem t).2 ⟨x, hx, e⟩)⟩
    have hnoholds : ∀ x ∈ vs ++ List.replicate n empty_line, ¬ holds t x := by
      intro x hx
      rcases List.mem_append.1 hx with h1 | h1
      · exact fun hh => (hnone x h1).2 hh.2
      · exact hempty x h1
    have hagedpw : List.Pairwise (fun a b : cache_line => a.timestamp < b.timestamp)
        (lp.map aged) := by
      rw [List.pairwise_map]
      refine hpw.imp ?_
      intro a b hab
      simp only [aged]; omega
    by_cases hlt : l.length < E
    · -- a free line is left: fill
      obtain ⟨n1, hn1⟩ : ∃ n1, n = n1 + 1 := ⟨n - 1, by omega⟩
      subst hn1
      have hlines : vs ++ List.replicate (n1 + 1) empty_line =
          vs ++ empty_line :: List.replicate n1 empty_line := by
        rw [List.replicate_succ]
      have hempty1 : ∀ x ∈ List.replicate n1 empty_line, ¬ holds t x := by
        intro x hx
        rw [(List.mem_replicate.1 hx).2]
        simp [holds, empty_line]
      have hacc := access_set_fill E t vs (List.replicate n1 empty_line) empty_line c
        (by rw [← hlines, List.length_append, List.length_replicate]; exact hlen) hnone rfl
        hempty1
      have hlru : lru_access E t l = (outcome.miss, t :: l) := by
        simp [lru_access, ht, hlt]
      rw [hlru]
      refine ⟨{ lines := vs.map aged ++ filled t ::
        (List.replicate n1 empty_line).map (after_found t) }, ?_, ?_, ?_, ?_, ?_, ?_⟩
      · rw [hlines]; exact hacc.1
      · rw [hlines]; exact hacc.2.1
      · refine ⟨vs.map aged ++ [filled t], filled t :: lp.map aged, n1,
          ?_, ?_, ?_, ?_, ?_, ?_, ?_⟩
        · simp only [map_after_found_empty, List.append_assoc, List.singleton_append]
        · simp; omega
        · exact (List.perm_append_singleton _ _).trans (List.Perm.cons _ (hperm.map _))
        · rw [List.map_cons, map_tag_aged, hmap]; rfl
        · rw [List.pairwise_cons]
          refine ⟨?_, hagedpw⟩
          intro y hy
          obtain ⟨x, hx, e⟩ := List.mem_map.1 hy
          have := (hval x hx).2
          rw [← e]; simp only [filled, aged]; omega
        · exact List.nodup_cons.2 ⟨ht, hnd⟩
        · intro x hx
          rcases List.mem_cons.1 hx with e | h1
          · rw [e]; exact ⟨rfl, le_refl _⟩
          · obtain ⟨y, hy, e⟩ := List.mem_map.1 h1
            have := hval y hy
            rw [← e]; simp only [aged]; exact ⟨this.1, by omega⟩
      · exact ⟨filled t, by simp, ⟨rfl, rfl⟩⟩
      · simp only [reduceCtorEq, false_iff, not_exists, not_and]
        exact hnoholds
      · simp only [reduceCtorEq, exists_false, false_iff, not_and]
        intro hh
        have := hh empty_line (by rw [hlines]; simp)
        simp [empty_line] at this
    · -- the set is full: eviction
      have hn0 : n = 0 := by omega
      subst hn0
      simp only [List.replicate_zero, List.append_nil, Nat.add_zero] at hlen hnoholds ⊢
      obtain ⟨k, v, hk, hmax, _, hacc, _, hev⟩ := access_set_evict E t vs c hlen hE hnone
        (fun x hx => (hvs x hx).2)
      obtain ⟨pre, post, hsplit, hprelen⟩ := split_at_index hk
      subst hsplit
      obtain ⟨A, B, hlp, hAB⟩ := perm_split hperm
      subst hlp
      have hB : B = [] := by
        apply List.eq_nil_iff_forall_not_mem.2
        intro y hy
        have h1 : v.timestamp < y.timestamp :=
          List.rel_of_pairwise_cons (List.pairwise_append.1 hpw).2.1 hy
        have h2 : y ∈ pre ++ v :: post :=
          hperm.mem_iff.2 (List.mem_append_right _ (List.mem_cons_of_mem _ hy))
        have := hmax y h2
        omega
      subst hB
      simp only [List.append_nil] at hAB
      have hlA : l = A.map cache_line.tag ++ [v.tag] := by
        rw [← hmap]; simp
      have hlru : lru_access E t l = (outcome.miss_evict v.tag, t :: A.map cache_line.tag) := by
        simp only [lru_access, ht, hlt, if_false]
        subst hlA
        simp [List.dropLast_cons_of_ne_nil]
      have hset : ((pre ++ v :: post).map aged).set k (filled t) =
          pre.map aged ++ filled t :: post.map aged := by
        rw [List.map_append, List.map_cons, ← hprelen, ← List.length_map pre aged]
        exact set_at_split _ _ _ _
      rw [hlru]
      refine ⟨{ lines := ((pre ++ v :: post).map aged).set k (filled t) },
        hacc, hev, ?_, ?_, ?_, ?_⟩
      · refine ⟨pre.map aged ++ filled t :: post.map aged, filled t :: A.map aged, 0,
          ?_, ?_, ?_, ?_, ?_, ?_, ?_⟩
        · simp only [hset, List.replicate_zero, List.append_nil]
        · simpa using hlen
        · refine List.perm_middle.trans (List.Perm.cons _ ?_)
          rw [← List.map_append]
          exact hAB.map _
        · rw [List.map_cons, map_tag_aged]; rfl
        · rw [List.pairwise_cons]
          refine ⟨?_, ?_⟩
          · intro y hy
            obtain ⟨x, hx, e⟩ := List.mem_map.1 hy
            have := (hval x (List.mem_append_left _ hx)).2
            rw [← e]; simp only [filled, aged]; omega
          · rw [List.pairwise_map]
            refine (List.pairwise_append.1 hpw).1.imp ?_
            intro a b hab
            simp only [aged]; omega
        · rw [hlA] at hnd ht
          refine List.nodup_cons.2 ⟨fun hh => ht (List.mem_append_left _ hh), ?_⟩
          exact (List.nodup_append.1 hnd).1
        · intro x hx
          rcases List.mem_cons.1 hx with e | h1
          · rw [e]; exact ⟨rfl, le_refl _⟩
          · obtain ⟨y, hy, e⟩ := List.mem_map.1 h1
            have := hval y (List.mem_append_left _ hy)
            rw [← e]; simp only [aged]; exact ⟨this.1, by omega⟩
      · exact ⟨filled t, by rw [hset]; simp, ⟨rfl, rfl⟩⟩
      · simp only [reduceCtorEq, false_iff, not_exists, not_and]
        exact hnoholds
      · simp only [outcome.miss_evict.injEq, exists_eq', true_iff]
        exact ⟨fun x hx => (hvs x hx).1, hnoholds⟩

/-! ## The cache of a run stands for one recency list per set -/

theorem set_index_eq_mod (cfg : config) (addr : Nat) :
    set_index cfg addr = (addr >>> cfg.b) % 2 ^ cfg.s := by
  unfold set_index
  exact Nat.and_pow_two_sub_one_eq_mod _ _

theorem set_index_lt (cfg : config) (addr : Nat) : set_index cfg addr < 2 ^ cfg.s := by
  rw [set_index_eq_mod]
  exact Nat.mod_lt _ (Nat.pos_pow_of_pos _ (by decide))

theorem init_tracks (cfg : config) :
    cache_tracks cfg.E (2 ^ cfg.s) (init_state cfg) (fun _ => []) := by
  refine ⟨by simp [init_state, init_cache], ?_⟩
  intro idx set hset
  simp only [init_state, init_cache, List.getElem?_replicate] at hset
  split at hset
  · cases hset
    exact ⟨[], [], cfg.E, by simp, by simp, List.Perm.refl _, rfl, List.Pairwise.nil,
      List.nodup_nil, by simp⟩
  · cases hset

/-- One decoded access to a cache whose sets stand for the recency lists `m`. -/
theorem access_at_step (E S idx t : Nat) (st : sim_state) (m : Nat → List Nat)
    (hE : 1 ≤ E) (h : cache_tracks E S st m) (hidx : idx < S) :
    ∃ set set1 st1, st.sim_cache.sets[idx]? = some set ∧
      access_at E idx t st = some st1 ∧
      st1.sim_cache.sets = st.sim_cache.sets.set idx set1 ∧
      st1.stats = record_outcome (lru_access E t (m idx)).1 st.stats ∧
      access_outcome E idx t st = some ((lru_access E t (m idx)).1, st1) ∧
      cache_tracks E S st1 (Function.update m idx (lru_access E t (m idx)).2) ∧
      (∃ x ∈ set1.lines, holds t x) ∧
      ((lru_access E t (m idx)).1 = outcome.hit ↔ ∃ x ∈ set.lines, holds t x) ∧
      ((∃ v, (lru_access E t (m idx)).1 = outcome.miss_evict v) ↔
        (∀ x ∈ set.lines, x.valid = true) ∧ ∀ x ∈ set.lines, ¬ holds t x) := by
  obtain ⟨hS, htr⟩ := h
  have hlt : idx < st.sim_cache.sets.length := by rw [hS]; exact hidx
  have hget : st.sim_cache.sets[idx]? = some (st.sim_cache.sets[idx]) :=
    List.getElem?_eq_getElem hlt
  obtain ⟨set1, hacc, hev, htr1, hholds, hhit, hevict⟩ :=
    tracks_step E t (st.sim_cache.sets[idx]) (m idx) st.stats hE (htr idx _ hget)
  have hat : access_at E idx t st =
      some { sim_cache := { sets := st.sim_cache.sets.set idx set1 },
             stats := record_outcome (lru_access E t (m idx)).1 st.stats } := by
    unfold access_at
    rw [hget]
    simp only [hacc]
  refine ⟨st.sim_cache.sets[idx], set1, _, hget, hat, rfl, rfl, ?_, ?_, hholds, hhit, hevict⟩
  · unfold access_outcome
    rw [hget]
    simp only [hat, hev, observed_record]
  · refine ⟨by simp [hS], ?_⟩
    intro j set hj
    simp only at hj
    by_cases hji : j = idx
    · subst hji
      rw [List.getElem?_set_self hlt] at hj
      cases hj
      simpa using htr1
    · rw [List.getElem?_set_ne (Ne.symm hji)] at hj
      rw [Function.update_noteq hji]
      exact htr j set hj

/-- One call of `access_cache` on a cache whose sets stand for recency lists: it succeeds,
moves the counters by one outcome, and leaves such a cache. -/
theorem access_cache_step (cfg : config) (addr : Nat) (st : sim_state) (m : Nat → List Nat)
    (hE : 1 ≤ cfg.E) (h : cache_tracks cfg.E (2 ^ cfg.s) st m) :
    ∃ st1 o m1, access_cache cfg addr st = some st1 ∧ st1.stats = record_outcome o st.stats ∧
      cache_tracks cfg.E (2 ^ cfg.s) st1 m1 := by
  obtain ⟨set, set1, st1, _, hat, _, hst, _, htr, _⟩ :=
    access_at_step cfg.E (2 ^ cfg.s) (set_index cfg addr) (tag_of cfg addr) st m hE h
      (set_index_lt cfg addr)
  exact ⟨st1, _, _, hat, hst, htr⟩

theorem run_tracks (cfg : config) (hE : 1 ≤ cfg.E) (addrs : List Nat) :
    ∀ (st : sim_state) (m : Nat → List Nat), cache_tracks cfg.E (2 ^ cfg.s) st m →
      ∃ st1 m1, run cfg addrs st = some st1 ∧ cache_tracks cfg.E (2 ^ cfg.s) st1 m1 := by
  induction addrs with
  | nil => intro st m h; exact ⟨st, m, rfl, h⟩
  | cons a rest ih =>
    intro st m h
    obtain ⟨st1, o, m1, hacc, _, htr⟩ := access_cache_step cfg a st m hE h
    obtain ⟨st2, m2, hrun, htr2⟩ := ih st1 m1 htr
    exact ⟨st2, m2, by simp [run, hacc, hrun], htr2⟩

theorem reachable_tracks (cfg : config) (hE : 1 ≤ cfg.E) (st : sim_state)
    (h : reachable cfg st) : ∃ m, cache_tracks cfg.E (2 ^ cfg.s) st m := by
  obtain ⟨addrs, hrun⟩ := h
  obtain ⟨st1, m1, hrun1, htr⟩ := run_tracks cfg hE addrs (init_state cfg) _ (init_tracks cfg)
  rw [hrun] at hrun1
  cases hrun1
  exact ⟨m1, htr⟩

theorem record_outcome_sum (o : outcome) (c : counters) :
    (record_outcome o c).hit_count + (record_outcome o c).miss_count =
      c.hit_count + c.miss_count + 1 := by
  cases o <;> simp [record_outcome] <;> ring

/-! ## Runs -/

theorem main_step_counts (cfg : config) (hE : 1 ≤ cfg.E) (r : record) (st : sim_state)
    (m : Nat → List Nat) (h : cache_tracks cfg.E (2 ^ cfg.s) st m) :
    ∃ st1 m1, main_step cfg r st = some st1 ∧ cache_tracks cfg.E (2 ^ cfg.s) st1 m1 ∧
      st1.stats.hit_count + st1.stats.miss_count =
        st.stats.hit_count + st.stats.miss_count +
          ((if r.access_type = 'L' then 1 else 0) + (if r.access_type = 'S' then 1 else 0) +
            2 * (if r.access_type = 'M' then 1 else 0)) := by
  obtain ⟨st1, o1, m1, hacc1, hst1, htr1⟩ := access_cache_step cfg r.address st m hE h
  obtain ⟨st2, o2, m2, hacc2, hst2, htr2⟩ := access_cache_step cfg r.address st1 m1 hE htr1
  have hs1 := record_outcome_sum o1 st.stats
  have hs2 := record_outcome_sum o2 st1.stats
  rw [← hst1] at hs1
  rw [← hst2] at hs2
  unfold main_step
  by_cases hM : r.access_type = 'M'
  · refine ⟨st2, m2, by simp [hM, hacc1, hacc2], htr2, ?_⟩
    simp only [hM, if_true]
    have e1 : ¬ ('M' = 'L') := by decide
    have e2 : ¬ ('M' = 'S') := by decide
    simp only [e1, e2, if_false]
    omega
  · by_cases hL : r.access_type = 'L'
    · refine ⟨st1, m1, by simp [hL, hacc1], htr1, ?_⟩
      have e2 : ¬ ('L' = 'S') := by decide
      have e3 : ¬ ('L' = 'M') := by decide
      simp only [hL, e2, e3, if_true, if_false]
      omega
    · by_cases hS : r.access_type = 'S'
      · refine ⟨st1, m1, by simp [hS, hacc1], htr1, ?_⟩
        have e1 : ¬ ('S' = 'L') := by decide
        have e3 : ¬ ('S' = 'M') := by decide
        simp only [hS, e1, e3, if_true, if_false]
        omega
      · exact ⟨st, m, by simp [hM, hL, hS], h, by simp [hM, hL, hS]⟩

theorem main_loop_counts (cfg : config) (hE : 1 ≤ cfg.E) (trace : List record) :
    ∀ (st : sim_state) (m : Nat → List Nat), cache_tracks cfg.E (2 ^ cfg.s) st m →
      ∃ st1 m1, main_loop cfg trace st = some st1 ∧ cache_tracks cfg.E (2 ^ cfg.s) st1 m1 ∧
        st1.stats.hit_count + st1.stats.miss_count =
          st.stats.hit_count + st.stats.miss_count +
            ((trace.countP (fun r => r.access_type == 'L') : Nat) +
              (trace.countP (fun r => r.access_type == 'S') : Nat) +
              2 * (trace.countP (fun r => r.access_type == 'M') : Nat)) := by
  induction trace with
  | nil => intro st m h; exact ⟨st, m, rfl, h, by simp⟩
  | cons r rest ih =>
    intro st m h
    obtain ⟨st1, m1, hstep, htr1, hc1⟩ := main_step_counts cfg hE r st m h
    obtain ⟨st2, m2, hloop, htr2, hc2⟩ := ih st1 m1 htr1
    refine ⟨st2, m2, by simp [main_loop, hstep, hloop], htr2, ?_⟩
    rw [hc2, hc1]
    simp only [List.countP_cons, beq_iff_eq]
    push_cast
    ring

theorem outcomes_refine (E S : Nat) (hE : 1 ≤ E) (accesses : List (Nat × Nat)) :
    ∀ (st : sim_state) (m : Nat → List Nat), cache_tracks E S st m →
      (∀ a ∈ accesses, a.1 < S) →
      outcomes E accesses st = some (lru_outcomes E accesses m) := by
  induction accesses with
  | nil => intro st m _ _; rfl
  | cons a rest ih =>
    intro st m h hidx
    obtain ⟨set, set1, st1, _, _, _, _, hout, htr, _⟩ :=
      access_at_step E S a.1 a.2 st m hE h (hidx a (List.mem_cons_self _ _))
    have hrest := ih st1 _ htr (fun x hx => hidx x (List.mem_cons_of_mem _ hx))
    simp only [outcomes, lru_outcomes, hout, hrest]

theorem run_keeps_tag (cfg : config) (hE : 1 ≤ cfg.E) (idx0 t0 : Nat) (mid : List Nat) :
    ∀ (st : sim_state) (m : Nat → List Nat), cache_tracks cfg.E (2 ^ cfg.s) st m →
      (∃ set, st.sim_cache.sets[idx0]? = some set ∧ ∃ x ∈ set.lines, holds t0 x) →
      (∀ a ∈ mid, set_index cfg a ≠ idx0 ∨ tag_of cfg a = t0) →
      ∃ st1 m1, run cfg mid st = some st1 ∧ cache_tracks cfg.E (2 ^ cfg.s) st1 m1 ∧
        ∃ set, st1.sim_cache.sets[idx0]? = some set ∧ ∃ x ∈ set.lines, holds t0 x := by
  induction mid with
  | nil => intro st m h hk _; exact ⟨st, m, rfl, h, hk⟩
  | cons a rest ih =>
    intro st m h hk hmid
    obtain ⟨set, set1, st1, hget, hat, hsets, _, _, htr, hholds, _⟩ :=
      access_at_step cfg.E (2 ^ cfg.s) (set_index cfg a) (tag_of cfg a) st m hE h
        (set_index_lt cfg a)
    have hk1 : ∃ set, st1.sim_cache.sets[idx0]? = some set ∧ ∃ x ∈ set.lines, holds t0 x := by
      rw [hsets]
      by_cases hi : set_index cfg a = idx0
      · have ht : tag_of cfg a = t0 := by
          rcases hmid a (List.mem_cons_self _ _) with h1 | h1
          · exact absurd hi h1
          · exact h1
        have hlt : idx0 < st.sim_cache.sets.length := by
          rw [h.1, ← hi]; exact set_index_lt cfg a
        refine ⟨set1, ?_, ?_⟩
        · rw [hi, List.getElem?_set_self hlt]
        · rw [← ht]; exact hholds
      · rw [List.getElem?_set_ne hi]
        exact hk
    obtain ⟨st2, m2, hrun, htr2, hk2⟩ :=
      ih st1 _ htr hk1 (fun x hx => hmid x (List.mem_cons_of_mem _ hx))
    refine ⟨st2, m2, ?_, htr2, hk2⟩
    have hac : access_cache cfg a st = some st1 := hat
    simp [run, hac, hrun]

theorem second_access_hits (cfg : config) (hE : 1 ≤ cfg.E) (st : sim_state)
    (hr : reachable cfg st) (addr : Nat) (mid : List Nat)
    (hmid : ∀ a ∈ mid, set_index cfg a ≠ set_index cfg addr ∨ tag_of cfg a = tag_of cfg addr) :
    ∃ st1 st2 st3, access_cache cfg addr st = some st1 ∧ run cfg mid st1 = some st2 ∧
      access_cache cfg addr st2 = some st3 ∧
      st3.stats.hit_count = st2.stats.hit_count + 1 ∧
      st3.stats.miss_count = st2.stats.miss_count ∧
      st3.stats.eviction_count = st2.stats.eviction_count := by
  obtain ⟨m, h⟩ := reachable_tracks cfg hE st hr
  obtain ⟨set, set1, st1, hget, hat, hsets, _, _, htr, hholds, _⟩ :=
    access_at_step cfg.E (2 ^ cfg.s) (set_index cfg addr) (tag_of cfg addr) st m hE h
      (set_index_lt cfg addr)
  have hlt : set_index cfg addr < st.sim_cache.sets.length := by
    rw [h.1]; exact set_index_lt cfg addr
  have hk1 : ∃ set, st1.sim_cache.sets[set_index cfg addr]? = some set ∧
      ∃ x ∈ set.lines, holds (tag_of cfg addr) x :=
    ⟨set1, by rw [hsets, List.getElem?_set_self hlt], hholds⟩
  obtain ⟨st2, m2, hrun, htr2, set2, hget2, hk2⟩ :=
    run_keeps_tag cfg hE _ _ mid st1 _ htr hk1 hmid
  obtain ⟨set3, set4, st3, hget3, hat3, _, hst3, _, _, _, hhit, _⟩ :=
    access_at_step cfg.E (2 ^ cfg.s) (set_index cfg addr) (tag_of cfg addr) st2 m2 hE htr2
      (set_index_lt cfg addr)
  rw [hget2] at hget3
  cases hget3
  have ho := hhit.2 hk2
  rw [ho] at hst3
  refine ⟨st1, st2, st3, hat, hrun, hat3, ?_, ?_, ?_⟩ <;> rw [hst3] <;> rfl

/-! ## The scan on an arbitrary set, line by line -/

theorem scan_body_found (tag i : Nat) (x : cache_line) (loc : locals) (c : counters) :
    (scan_body tag i x loc c).2.1.line_found = true ↔
      loc.line_found = true ∨ resolves tag x := by
  unfold scan_body resolves
  cases hv : x.valid <;> by_cases ht : x.tag = tag <;> cases hf : loc.line_found <;>
    simp [hv, ht, hf] <;> split <;> simp [hf]

theorem scan_found_iff (tag : Nat) (xs : List cache_line) :
    ∀ (i : Nat) (loc : locals) (c : counters),
      (scan tag i xs loc c).2.1.line_found = true ↔
        loc.line_found = true ∨ ∃ x ∈ xs, resolves tag x := by
  induction xs with
  | nil => intro i loc c; simp [scan]
  | cons x xs ih =>
    intro i loc c
    simp only [scan, ih, scan_body_found, List.mem_cons, exists_eq_or_imp]
    tauto

/-- What the scan leaves in each line: a valid line is refreshed if it holds the tag and aged
otherwise; an invalid line is filled if `line_found` is unset when the scan reaches it, that
is if no earlier line is invalid or carries the tag, and is left alone otherwise. -/
theorem scan_line (tag : Nat) (xs : List cache_line) :
    ∀ (i : Nat) (loc : locals) (c : counters) (k : Nat) (x : cache_line), xs[k]? = some x →
      (x.valid = true → (scan tag i xs loc c).1[k]? = some (after_found tag x)) ∧
      (x.valid = false →
        (loc.line_found = true ∨ ∃ j y, j < k ∧ xs[j]? = some y ∧ resolves tag y) →
        (scan tag i xs loc c).1[k]? = some x) ∧
      (x.valid = false → loc.line_found = false →
        (∀ j y, j < k → xs[j]? = some y → ¬ resolves tag y) →
        (scan tag i xs loc c).1[k]? = some (filled tag)) := by
  induction xs with
  | nil => intro i loc c k x hk; simp at hk
  | cons z xs ih =>
    intro i loc c k x hk
    cases k with
    | zero =>
      simp only [List.getElem?_cons_zero, Option.some.injEq] at hk
      subst hk
      simp only [scan, List.getElem?_cons_zero, Option.some.injEq]
      refine ⟨?_, ?_, ?_⟩
      · intro hv
        by_cases ht : z.tag = tag
        · rw [scan_body_hit tag i z loc c hv ht]; simp [after_found, hv, ht]
        · rw [(scan_body_other tag i z loc c hv ht).1]; simp [after_found, hv, ht]
      · intro hv hf
        rcases hf with hf | ⟨j, y, hj, _⟩
        · rw [scan_body_skip tag i z loc c hv hf]
        · omega
      · intro hv hf _
        rw [scan_body_fill tag i z loc c hv hf]
    | succ k =>
      simp only [List.getElem?_cons_succ] at hk
      obtain ⟨a1, a2, a3⟩ := ih (i + 1) (scan_body tag i z loc c).2.1
        (scan_body tag i z loc c).2.2 k x hk
      simp only [scan, List.getElem?_cons_succ]
      refine ⟨a1, ?_, ?_⟩
      · intro hv hf
        apply a2 hv
        rw [scan_body_found]
        rcases hf with hf | ⟨j, y, hj, hy, hres⟩
        · exact Or.inl (Or.inl hf)
        · cases j with
          | zero =>
            simp only [List.getElem?_cons_zero, Option.some.injEq] at hy
            subst hy
            exact Or.inl (Or.inr hres)
          | succ j =>
            exact Or.inr ⟨j, y, by omega, by simpa using hy, hres⟩
      · intro hv hf hno
        apply a3 hv
        · cases hb : (scan_body tag i z loc c).2.1.line_found with
          | false => rfl
          | true =>
            exfalso
            rcases (scan_body_found tag i z loc c).1 hb with h1 | h1
            · rw [hf] at h1; cases h1
            · exact hno 0 z (by omega) (by simp) h1
        · intro j y hj hy
          exact hno (j + 1) y (by omega) (by simpa using hy)

/-- Outside the line written by the eviction branch, the set after `access_cache` is the
set as the scan left it. -/
theorem access_set_lines (E tag : Nat) (set set1 : cache_set) (c c1 : counters)
    (hlen : set.lines.length = E) (h : access_set E tag set c = some (set1, c1)) (k : Nat)
    (hk : victim_line E tag set c ≠ some k) :
    set1.lines[k]? = (scan tag 0 set.lines locals_init c).1[k]? := by
  unfold access_set at h
  unfold victim_line at hk
  simp only [← hlen, lt_irrefl, if_false, List.take_length, List.drop_length,
    List.append_nil] at h hk
  by_cases hf : (scan tag 0 set.lines locals_init c).2.1.line_found = true
  · simp only [hf, if_true, Option.some.injEq, Prod.mk.injEq] at h
    rw [← h.1]
  · have hf2 : (scan tag 0 set.lines locals_init c).2.1.line_found = false := by
      simpa using hf
    simp only [hf2, Bool.false_eq_true, if_false] at h hk
    by_cases hneg : (scan tag 0 set.lines locals_init c).2.1.oldest_line < 0
    · rw [if_pos hneg] at h; cases h
    · rw [if_neg hneg] at h hk
      cases hget : (scan tag 0 set.lines locals_init c).1[
          (scan tag 0 set.lines locals_init c).2.1.oldest_line.toNat]? with
      | none => simp only [hget] at h; cases h
      | some line =>
        simp only [hget, Option.some.injEq, Prod.mk.injEq] at h
        rw [← h.1]
        simp only
        rw [List.getElem?_set_ne (fun e => hk (by rw [e]))]

/-- On a correctly sized set of at least one line without negative timestamps,
`access_cache` stays inside the array. -/
theorem access_set_total (E tag : Nat) (set : cache_set) (c : counters)
    (hlen : set.lines.length = E) (hE : 1 ≤ E) (hts : ∀ x ∈ set.lines, 0 ≤ x.timestamp) :
    ∃ r, access_set E tag set c = some r := by
  by_cases hres : ∃ x ∈ set.lines, resolves tag x
  · have hf := (scan_found_iff tag set.lines 0 locals_init c).2 (Or.inr hres)
    unfold access_set
    simp only [← hlen, lt_irrefl, if_false, List.take_length, List.drop_length,
      List.append_nil, hf, if_true]
    exact ⟨_, rfl⟩
  · have hall : ∀ x ∈ set.lines, x.valid = true ∧ x.tag ≠ tag := by
      intro x hx
      have hx2 : ¬ resolves tag x := fun hh => hres ⟨x, hx, hh⟩
      unfold resolves at hx2
      constructor
      · cases hv : x.valid with
        | true => rfl
        | false => exact absurd (Or.inl hv) hx2
      · exact fun e => hx2 (Or.inr e)
    obtain ⟨k, v, _, _, _, hacc, _⟩ := access_set_evict E tag set.lines c hlen hE hall hts
    exact ⟨_, hacc⟩

theorem first_invalid_split (xs : List cache_line) (h : ∃ x ∈ xs, x.valid = false) :
    ∃ pre v post, xs = pre ++ v :: post ∧ (∀ x ∈ pre, x.valid = true) ∧ v.valid = false := by
  induction xs with
  | nil => simp at h
  | cons z xs ih =>
    cases hv : z.valid with
    | false => exact ⟨[], z, xs, rfl, by simp, hv⟩
    | true =>
      have h2 : ∃ x ∈ xs, x.valid = false := by
        obtain ⟨x, hx, hxv⟩ := h
        rcases List.mem_cons.1 hx with e | hm
        · rw [e, hv] at hxv; cases hxv
        · exact ⟨x, hm, hxv⟩
      obtain ⟨pre, v, post, e, hpre, hvv⟩ := ih h2
      refine ⟨z :: pre, v, post, by rw [e]; rfl, ?_, hvv⟩
      intro x hx
      rcases List.mem_cons.1 hx with e1 | hm
      · rw [e1]; exact hv
      · exact hpre x hm

theorem victim_line_none_of_resolves (E tag : Nat) (set : cache_set) (c : counters)
    (hlen : set.lines.length = E) (h : ∃ x ∈ set.lines, resolves tag x) :
    victim_line E tag set c = none := by
  have hf := (scan_found_iff tag set.lines 0 locals_init c).2 (Or.inr h)
  unfold victim_line
  simp only [← hlen, List.take_length, hf, if_true]

theorem valid_after_found (tag : Nat) (x : cache_line) :
    (after_found tag x).valid = x.valid ∧ (after_found tag x).tag = x.tag := by
  unfold after_found
  split
  · split <;> simp [refreshed, aged]
  · exact ⟨rfl, rfl⟩

theorem getElem?_split_at {α : Type} (pre post : List α) (v : α) :
    (pre ++ v :: post)[pre.length]? = some v := by
  rw [List.getElem?_append_right (le_refl _)]
  simp

theorem getElem?_split_before {α : Type} (pre post : List α) (v : α) (j : Nat)
    (hj : j < pre.length) : (pre ++ v :: post)[j]? = pre[j]? :=
  List.getElem?_append_left hj

theorem to_int_small (n : Nat) (h : n < 2 ^ 31) : to_int n = (n : Int) := by
  unfold to_int
  have h1 : n % 2 ^ 32 = n := Nat.mod_eq_of_lt (by omega)
  rw [h1, if_pos h]

/-! ## Reachable states without an assumption on `E` -/

theorem access_set_zero (tag : Nat) (set : cache_set) (c : counters) :
    access_set 0 tag set c = none := by
  simp [access_set, scan, locals_init]

theorem access_cache_pos (cfg : config) (addr : Nat) (st st1 : sim_state)
    (h : access_cache cfg addr st = some st1) : 1 ≤ cfg.E := by
  rcases Nat.eq_zero_or_pos cfg.E with h0 | h0
  · exfalso
    unfold access_cache access_at at h
    rw [h0] at h
    cases hget : st.sim_cache.sets[set_index cfg addr]? with
    | none => rw [hget] at h; cases h
    | some set =>
      rw [hget] at h
      simp only [access_set_zero] at h
      cases h
  · exact h0

/-- From a state whose sets stand for recency lists, every state reached by calls of
`access_cache` has the property `P`, provided the first state has it and every call from a
state of that kind keeps it. -/
theorem run_induction (cfg : config) (P : sim_state → Prop)
    (hstep : ∀ (st st1 : sim_state) (m : Nat → List Nat) (addr : Nat), 1 ≤ cfg.E →
      cache_tracks cfg.E (2 ^ cfg.s) st m → P st → access_cache cfg addr st = some st1 → P st1)
    (addrs : List Nat) :
    ∀ (st st1 : sim_state) (m : Nat → List Nat), cache_tracks cfg.E (2 ^ cfg.s) st m → P st →
      run cfg addrs st = some st1 → P st1 ∧ ∃ m1, cache_tracks cfg.E (2 ^ cfg.s) st1 m1 := by
  induction addrs with
  | nil =>
    intro st st1 m h hP hrun
    simp only [run, Option.some.injEq] at hrun
    subst hrun
    exact ⟨hP, m, h⟩
  | cons a rest ih =>
    intro st st1 m h hP hrun
    simp only [run] at hrun
    cases hacc : access_cache cfg a st with
    | none => rw [hacc] at hrun; cases hrun
    | some st2 =>
      rw [hacc] at hrun
      have hE := access_cache_pos cfg a st st2 hacc
      obtain ⟨st3, o, m1, hacc3, _, htr⟩ := access_cache_step cfg a st m hE h
      rw [hacc] at hacc3
      cases hacc3
      exact ih st2 st1 m1 htr (hstep st st2 m a hE h hP hacc) hrun

theorem reachable_induction (cfg : config) (P : sim_state → Prop) (h0 : P (init_state cfg))
    (hstep : ∀ (st st1 : sim_state) (m : Nat → List Nat) (addr : Nat), 1 ≤ cfg.E →
      cache_tracks cfg.E (2 ^ cfg.s) st m → P st → access_cache cfg addr st = some st1 → P st1)
    (st : sim_state) (hr : reachable cfg st) :
    P st ∧ ∃ m, cache_tracks cfg.E (2 ^ cfg.s) st m := by
  obtain ⟨addrs, hrun⟩ := hr
  exact run_induction cfg P hstep addrs (init_state cfg) st _ (init_tracks cfg) h0 hrun

/-- The final state of the replay loop is reachable from the state it starts in. -/
theorem main_loop_run (cfg : config) (trace : List record) :
    ∀ (st st1 : sim_state), main_loop cfg trace st = some st1 →
      ∃ addrs, run cfg addrs st = some st1 := by
  induction trace with
  | nil =>
    intro st st1 h
    simp only [main_loop, Option.some.injEq] at h
    exact ⟨[], by simp [run, h]⟩
  | cons r rest ih =>
    intro st st1 h
    simp only [main_loop] at h
    cases hstep : main_step cfg r st with
    | none => rw [hstep] at h; cases h
    | some st2 =>
      rw [hstep] at h
      obtain ⟨addrs, hrun⟩ := ih st2 st1 h
      unfold main_step at hstep
      split at hstep
      · cases hacc : access_cache cfg r.address st with
        | none => rw [hacc] at hstep; cases hstep
        | some st3 =>
          rw [hacc] at hstep
          simp only at hstep
          split at hstep
          · exact ⟨r.address :: r.address :: addrs, by simp [run, hacc, hstep, hrun]⟩
          · cases hstep
            exact ⟨r.address :: addrs, by simp [run, hacc, hrun]⟩
      · cases hstep
        exact ⟨addrs, hrun⟩

theorem main_loop_reachable (cfg : config) (trace : List record) (st : sim_state)
    (h : main_loop cfg trace (init_state cfg) = some st) : reachable cfg st :=
  main_loop_run cfg trace (init_state cfg) st h

/-! ## What the invariant says about the lines of a set -/

theorem tracks_shape (E : Nat) (set : cache_set) (l : List Nat) (h : tracks E set l) :
    ∃ (vs : List cache_line) (n : Nat), set.lines = vs ++ List.replicate n empty_line ∧
      vs.length + n = E ∧ (∀ x ∈ vs, x.valid = true ∧ 0 ≤ x.timestamp) ∧
      (vs.map cache_line.timestamp).Nodup ∧ (vs.map cache_line.tag).Nodup ∧
      vs.length = l.length := by
  obtain ⟨vs, lp, n, hl, hlen, hperm, hmap, hpw, hnd, hval⟩ := h
  refine ⟨vs, n, hl, hlen, fun x hx => hval x (hperm.mem_iff.1 hx), ?_, ?_, ?_⟩
  · rw [(hperm.map _).nodup_iff]
    unfold List.Nodup
    rw [List.pairwise_map]
    exact hpw.imp (fun hab => ne_of_lt hab)
  · rw [(hperm.map _).nodup_iff, hmap]; exact hnd
  · rw [← hmap, List.length_map, hperm.length_eq]

theorem tracks_length (E : Nat) (set : cache_set) (l : List Nat) (h : tracks E set l) :
    set.lines.length = E := by
  obtain ⟨vs, n, hl, hlen, _⟩ := tracks_shape E set l h
  rw [hl, List.length_append, List.length_replicate]
  exact hlen

theorem tracks_nonneg (E : Nat) (set : cache_set) (l : List Nat) (h : tracks E set l) :
    ∀ x ∈ set.lines, 0 ≤ x.timestamp := by
  obtain ⟨vs, n, hl, _, hvs, _⟩ := tracks_shape E set l h
  intro x hx
  rw [hl] at hx
  rcases List.mem_append.1 hx with h1 | h1
  · exact (hvs x h1).2
  · rw [(List.mem_replicate.1 h1).2]
    exact le_refl _

/-- A valid line of a set that satisfies the invariant lies among the first lines `vs`. -/
theorem valid_index_lt (vs : List cache_line) (n i : Nat) (x : cache_line)
    (hx : (vs ++ List.replicate n empty_line)[i]? = some x) (hv : x.valid = true) :
    i < vs.length ∧ vs[i]? = some x := by
  rcases Nat.lt_or_ge i vs.length with h1 | h1
  · exact ⟨h1, by rw [← hx, List.getElem?_append_left h1]⟩
  · exfalso
    rw [List.getElem?_append_right h1] at hx
    have hm := List.getElem?_mem hx
    rw [(List.mem_replicate.1 hm).2] at hv
    simp [empty_line] at hv

theorem tracks_valid_first (E : Nat) (set : cache_set) (l : List Nat) (h : tracks E set l)
    (i j : Nat) (x y : cache_line) (hji : j < i) (hx : set.lines[i]? = some x)
    (hv : x.valid = true) (hy : set.lines[j]? = some y) : y.valid = true := by
  obtain ⟨vs, n, hl, _, hvs, _⟩ := tracks_shape E set l h
  rw [hl] at hx hy
  obtain ⟨hi, _⟩ := valid_index_lt vs n i x hx hv
  rw [List.getElem?_append_left (by omega)] at hy
  exact (hvs y (List.getElem?_mem hy)).1

theorem tracks_distinct (E : Nat) (set : cache_set) (l : List Nat) (h : tracks E set l)
    (i j : Nat) (x y : cache_line) (hx : set.lines[i]? = some x) (hy : set.lines[j]? = some y)
    (hxv : x.valid = true) (hyv : y.valid = true) (hts : x.timestamp = y.timestamp) :
    i = j := by
  obtain ⟨vs, n, hl, _, _, hnd, _⟩ := tracks_shape E set l h
  rw [hl] at hx hy
  obtain ⟨hi, hxi⟩ := valid_index_lt vs n i x hx hxv
  obtain ⟨hj, hyj⟩ := valid_index_lt vs n j y hy hyv
  have hi2 : i < (vs.map cache_line.timestamp).length := by simpa using hi
  have hj2 : j < (vs.map cache_line.timestamp).length := by simpa using hj
  apply (@List.Nodup.getElem_inj_iff _ _ hnd i hi2 j hj2).1
  obtain ⟨_, e1⟩ := List.getElem?_eq_some.1 hxi
  obtain ⟨_, e2⟩ := List.getElem?_eq_some.1 hyj
  simp only [List.getElem_map, e1, e2, hts]

theorem tracks_valid_count (E : Nat) (set : cache_set) (l : List Nat) (h : tracks E set l) :
    valid_count set = l.length := by
  obtain ⟨vs, n, hl, _, hvs, _, _, hlen⟩ := tracks_shape E set l h
  unfold valid_count
  rw [hl, List.countP_append, List.countP_replicate, ← hlen]
  have h1 : List.countP (fun x => x.valid) vs = vs.length :=
    List.countP_eq_length.2 (fun a ha => (hvs a ha).1)
  rw [h1]
  simp [empty_line]

theorem sum_map_set {α : Type} (f : α → Nat) (l : List α) :
    ∀ (i : Nat) (a x : α), l[i]? = some x →
      ((l.set i a).map f).sum + f x = (l.map f).sum + f a := by
  induction l with
  | nil => intro i a x h; simp at h
  | cons z l ih =>
    intro i a x h
    cases i with
    | zero =>
      simp only [List.getElem?_cons_zero, Option.some.injEq] at h
      subst h
      simp only [List.set_cons_zero, List.map_cons, List.sum_cons]
      omega
    | succ i =>
      simp only [List.getElem?_cons_succ] at h
      have := ih i a x h
      simp only [List.set_cons_succ, List.map_cons, List.sum_cons]
      omega

theorem lru_access_length (E t : Nat) (l : List Nat) :
    ((lru_access E t l).1 = outcome.hit → (lru_access E t l).2.length = l.length) ∧
    ((lru_access E t l).1 = outcome.miss → (lru_access E t l).2.length = l.length + 1) ∧
    (∀ v, (lru_access E t l).1 = outcome.miss_evict v →
      (lru_access E t l).2.length = l.length) := by
  unfold lru_access
  by_cases ht : t ∈ l
  · simp only [ht, if_true, reduceCtorEq, false_implies, implies_true, and_true, true_implies]
    rw [List.length_cons, List.length_erase_of_mem ht]
    have : 0 < l.length := List.length_pos_of_mem ht
    omega
  · by_cases hlt : l.length < E
    · simp [ht, hlt]
    · simp [ht, hlt]

/-! ## Every line after an access -/

/-- The line written by the eviction branch carries the requested tag and timestamp 0. -/
theorem access_set_victim (E tag : Nat) (set set1 : cache_set) (c c1 : counters)
    (hlen : set.lines.length = E) (h : access_set E tag set c = some (set1, c1)) (k : Nat)
    (hk : victim_line E tag set c = some k) (z : cache_line) (hz : set1.lines[k]? = some z) :
    z.timestamp = 0 ∧ z.tag = tag := by
  unfold access_set at h
  unfold victim_line at hk
  simp only [← hlen, lt_irrefl, if_false, List.take_length, List.drop_length,
    List.append_nil] at h hk
  by_cases hf : (scan tag 0 set.lines locals_init c).2.1.line_found = true
  · simp [hf] at hk
  · have hf2 : (scan tag 0 set.lines locals_init c).2.1.line_found = false := by
      simpa using hf
    simp only [hf2, Bool.false_eq_true, if_false] at h hk
    by_cases hneg : (scan tag 0 set.lines locals_init c).2.1.oldest_line < 0
    · rw [if_pos hneg] at h; cases h
    · rw [if_neg hneg] at h hk
      simp only [Option.some.injEq] at hk
      rw [hk] at h
      cases hget : (scan tag 0 set.lines locals_init c).1[k]? with
      | none => simp only [hget] at h; cases h
      | some line =>
        simp only [hget, Option.some.injEq, Prod.mk.injEq] at h
        rw [← h.1] at hz
        simp only at hz
        have hkl : k < (scan tag 0 set.lines locals_init c).1.length :=
          (List.getElem?_eq_some.1 hget).1
        rw [List.getElem?_set_self hkl] at hz
        cases hz
        exact ⟨rfl, rfl⟩

/-- After a completed access for tag `t`, a valid line either carries `t` with timestamp 0
(it is the hit, filled or victim line) or is a line that was valid with another tag and has
been aged by one. -/
theorem access_set_line_cases (E t : Nat) (set set1 : cache_set) (c c1 : counters)
    (hlen : set.lines.length = E) (h : access_set E t set c = some (set1, c1)) (k : Nat)
    (z : cache_line) (hz : set1.lines[k]? = some z) (hzv : z.valid = true) :
    (z.timestamp = 0 ∧ z.tag = t) ∨
      ∃ x, set.lines[k]? = some x ∧ x.valid = true ∧ x.tag ≠ t ∧ z = aged x := by
  by_cases hk : victim_line E t set c = some k
  · exact Or.inl (access_set_victim E t set set1 c c1 hlen h k hk z hz)
  · rw [access_set_lines E t set set1 c c1 hlen h k hk] at hz
    have hkl : k < set.lines.length := by
      have := (List.getElem?_eq_some.1 hz).1
      rwa [scan_length] at this
    obtain ⟨s1, s2, s3⟩ := scan_line t set.lines 0 locals_init c k set.lines[k]
      (List.getElem?_eq_getElem hkl)
    cases hv : (set.lines[k]).valid with
    | true =>
      rw [s1 hv] at hz
      cases hz
      by_cases ht : (set.lines[k]).tag = t
      · left
        simp [after_found, hv, ht, refreshed]
      · right
        exact ⟨set.lines[k], List.getElem?_eq_getElem hkl, hv, ht,
          by simp [after_found, hv, ht]⟩
    | false =>
      by_cases hearlier : ∃ (j : Nat) (y : cache_line),
          j < k ∧ set.lines[j]? = some y ∧ resolves t y
      · rw [s2 hv (Or.inr hearlier)] at hz
        cases hz
        rw [hv] at hzv; cases hzv
      · rw [s3 hv rfl (fun j y hj hy hres => hearlier ⟨j, y, hj, hy, hres⟩)] at hz
        cases hz
        left
        simp [filled]

/-- In a set that satisfies the invariant, when the scan ends with `line_found` unset,
`oldest_line` is an index of the set. -/
theorem scan_oldest_in_bounds (E t : Nat) (set : cache_set) (l : List Nat) (c : counters)
    (hE : 1 ≤ E) (h : tracks E set l)
    (hf : (scan t 0 (set.lines.take E) locals_init c).2.1.line_found = false) :
    0 ≤ (scan t 0 (set.lines.take E) locals_init c).2.1.oldest_line ∧
      (scan t 0 (set.lines.take E) locals_init c).2.1.oldest_line < (E : Int) := by
  have hlen := tracks_length E set l h
  have hts := tracks_nonneg E set l h
  rw [← hlen, List.take_length] at hf ⊢
  have hnores : ¬ ∃ x ∈ set.lines, resolves t x := by
    intro hres
    have := (scan_found_iff t set.lines 0 locals_init c).2 (Or.inr hres)
    rw [hf] at this; cases this
  have hall : ∀ x ∈ set.lines, x.valid = true ∧ x.tag ≠ t := by
    intro x hx
    have hx2 : ¬ resolves t x := fun hh => hnores ⟨x, hx, hh⟩
    unfold resolves at hx2
    constructor
    · cases hv : x.valid with
      | true => rfl
      | false => exact absurd (Or.inl hv) hx2
    · exact fun e => hx2 (Or.inr e)
  have hne : set.lines ≠ [] := by
    intro e; rw [e] at hlen; simp at hlen; omega
  obtain ⟨k, v, ot, hk, _, _, hscan⟩ := scan_evict t set.lines c hne hall hts
  have hkl := (List.getElem?_eq_some.1 hk).1
  rw [hscan]
  simp only
  omega

/-! ## Facts about runs -/

theorem access_at_unfold (E idx t : Nat) (st st1 : sim_state)
    (h : access_at E idx t st = some st1) :
    ∃ set set1, st.sim_cache.sets[idx]? = some set ∧
      access_set E t set st.stats = some (set1, st1.stats) ∧
      st1.sim_cache.sets = st.sim_cache.sets.set idx set1 := by
  unfold access_at at h
  cases hget : st.sim_cache.sets[idx]? with
  | none => rw [hget] at h; cases h
  | some set =>
    rw [hget] at h
    cases hacc : access_set E t set st.stats with
    | none => simp only [hacc] at h; cases h
    | some r =>
      obtain ⟨set1, c1⟩ := r
      simp only [hacc, Option.some.injEq] at h
      subst h
      exact ⟨set, set1, rfl, hacc, rfl⟩

theorem access_cache_frame (cfg : config) (addr : Nat) (st st1 : sim_state)
    (h : access_cache cfg addr st = some st1) (j : Nat) (hj : j ≠ set_index cfg addr) :
    st1.sim_cache.sets[j]? = st.sim_cache.sets[j]? := by
  obtain ⟨set, set1, _, _, hsets⟩ := access_at_unfold _ _ _ st st1 h
  rw [hsets, List.getElem?_set_ne (Ne.symm hj)]

theorem reachable_tracks_all (cfg : config) (st : sim_state) (h : reachable cfg st) :
    ∃ m, cache_tracks cfg.E (2 ^ cfg.s) st m :=
  (reachable_induction cfg (fun _ => True) trivial (fun _ _ _ _ _ _ _ _ => trivial) st h).2

theorem run_append (cfg : config) (xs ys : List Nat) :
    ∀ (st st2 : sim_state), run cfg (xs ++ ys) st = some st2 →
      ∃ st1, run cfg xs st = some st1 ∧ run cfg ys st1 = some st2 := by
  induction xs with
  | nil => intro st st2 h; exact ⟨st, rfl, h⟩
  | cons a xs ih =>
    intro st st2 h
    simp only [List.cons_append, run] at h ⊢
    cases hacc : access_cache cfg a st with
    | none => rw [hacc] at h; cases h
    | some st1 =>
      rw [hacc] at h
      exact ih st1 st2 h

/-- The counters `hit_count + miss_count` count the calls of `access_cache`. -/
theorem run_sum (cfg : config) (addrs : List Nat) :
    ∀ (st st1 : sim_state) (m : Nat → List Nat), cache_tracks cfg.E (2 ^ cfg.s) st m →
      run cfg addrs st = some st1 →
      st1.stats.hit_count + st1.stats.miss_count =
        st.stats.hit_count + st.stats.miss_count + (addrs.length : Int) := by
  induction addrs with
  | nil =>
    intro st st1 m _ h
    simp only [run, Option.some.injEq] at h
    subst h
    simp
  | cons a rest ih =>
    intro st st1 m htr h
    simp only [run] at h
    cases hacc : access_cache cfg a st with
    | none => rw [hacc] at h; cases h
    | some st2 =>
      rw [hacc] at h
      have hE := access_cache_pos cfg a st st2 hacc
      obtain ⟨st3, o, m1, hacc3, hst, htr1⟩ := access_cache_step cfg a st m hE htr
      rw [hacc] at hacc3
      cases hacc3
      have h1 := ih st2 st1 m1 htr1 h
      have h2 := record_outcome_sum o st.stats
      rw [← hst] at h2
      rw [h1, h2, List.length_cons]
      push_cast
      ring

/-- A line that is valid after a call of `access_cache` has timestamp 0, or its timestamp is
at most one more than that of a valid line of the same set before the call. -/
theorem access_cache_line (cfg : config) (addr : Nat) (st st1 : sim_state)
    (m : Nat → List Nat) (htr : cache_tracks cfg.E (2 ^ cfg.s) st m)
    (h : access_cache cfg addr st = some st1) (idx : Nat) (set1 : cache_set)
    (hset1 : st1.sim_cache.sets[idx]? = some set1) (z : cache_line) (hz : z ∈ set1.lines)
    (hzv : z.valid = true) :
    z.timestamp = 0 ∨ ∃ set x, st.sim_cache.sets[idx]? = some set ∧ x ∈ set.lines ∧
      x.valid = true ∧ z.timestamp ≤ x.timestamp + 1 := by
  obtain ⟨set, set2, hget, hacc, hsets⟩ := access_at_unfold _ _ _ st st1 h
  by_cases hidx : idx = set_index cfg addr
  · have hlt : set_index cfg addr < st.sim_cache.sets.length :=
      (List.getElem?_eq_some.1 hget).1
    rw [hsets, hidx, List.getElem?_set_self hlt] at hset1
    cases hset1
    obtain ⟨k, hk⟩ := List.mem_iff_getElem?.1 hz
    have hlen := tracks_length cfg.E set _ (htr.2 _ set hget)
    rcases access_set_line_cases cfg.E _ set set1 st.stats st1.stats hlen hacc k z hk hzv
      with h1 | ⟨x, hx, hxv, _, e⟩
    · exact Or.inl h1.1
    · right
      refine ⟨set, x, by rw [hidx]; exact hget, List.getElem?_mem hx, hxv, ?_⟩
      rw [e]; exact le_refl _
  · rw [access_cache_frame cfg addr st st1 h idx hidx] at hset1
    right
    exact ⟨set1, z, hset1, hz, hzv, by omega⟩

/-- Timestamps of valid lines stay below the number of calls counted by
`hit_count + miss_count`. -/
theorem reachable_bound (cfg : config) (st : sim_state) (hr : reachable cfg st) :
    0 ≤ st.stats.hit_count + st.stats.miss_count ∧
      ∀ (idx : Nat) (set : cache_set), st.sim_cache.sets[idx]? = some set →
        ∀ x ∈ set.lines, x.valid = true →
        x.timestamp < st.stats.hit_count + st.stats.miss_count := by
  refine (reachable_induction cfg
    (fun st => 0 ≤ st.stats.hit_count + st.stats.miss_count ∧
      ∀ (idx : Nat) (set : cache_set), st.sim_cache.sets[idx]? = some set →
        ∀ x ∈ set.lines, x.valid = true →
        x.timestamp < st.stats.hit_count + st.stats.miss_count) ?_ ?_ st hr).1
  · refine ⟨by simp [init_state], ?_⟩
    intro idx set hset x hx hv
    exfalso
    simp only [init_state, init_cache, List.getElem?_replicate] at hset
    split at hset
    · cases hset
      simp only [List.mem_replicate] at hx
      rw [hx.2] at hv
      simp [empty_line] at hv
    · cases hset
  · intro st0 st1 m addr hE htr hP hacc
    obtain ⟨st2, o, m1, hacc2, hst, _⟩ := access_cache_step cfg addr st0 m hE htr
    rw [hacc] at hacc2
    cases hacc2
    have hsum := record_outcome_sum o st0.stats
    rw [← hst] at hsum
    refine ⟨by omega, ?_⟩
    intro idx set1 hset1 z hz hzv
    rcases access_cache_line cfg addr st0 st1 m htr hacc idx set1 hset1 z hz hzv
      with h1 | ⟨set, x, hset, hx, hxv, hle⟩
    · omega
    · have := hP.2 idx set hset x hx hxv
      omega

/-- On one set of two lines, after loads of tags 0 and 1, every further load of tag 0 is a
hit that ages the line of tag 1 by one: its timestamp grows with the trace. -/
theorem repeated_hits_age (n : Nat) :
    ∀ (k h : Int),
      run ⟨1, 2, 1⟩ (List.replicate n 0)
          ⟨⟨[⟨[⟨true, 0, 0⟩, ⟨true, 1, k⟩]⟩, ⟨[⟨false, 0, 0⟩, ⟨false, 0, 0⟩]⟩]⟩, ⟨h, 2, 0⟩⟩ =
        some ⟨⟨[⟨[⟨true, 0, 0⟩, ⟨true, 1, k + n⟩]⟩, ⟨[⟨false, 0, 0⟩, ⟨false, 0, 0⟩]⟩]⟩,
          ⟨h + n, 2, 0⟩⟩ := by
  induction n with
  | zero => intro k h; simp [run]
  | succ n ih =>
    intro k h
    have hidx : set_index ⟨1, 2, 1⟩ 0 = 0 := by decide
    have htag : tag_of ⟨1, 2, 1⟩ 0 = 0 := by decide
    have hstep : access_cache ⟨1, 2, 1⟩ 0
        ⟨⟨[⟨[⟨true, 0, 0⟩, ⟨true, 1, k⟩]⟩, ⟨[⟨false, 0, 0⟩, ⟨false, 0, 0⟩]⟩]⟩, ⟨h, 2, 0⟩⟩ =
        some ⟨⟨[⟨[⟨true, 0, 0⟩, ⟨true, 1, k + 1⟩]⟩, ⟨[⟨false, 0, 0⟩, ⟨false, 0, 0⟩]⟩]⟩,
          ⟨h + 1, 2, 0⟩⟩ := by
      by_cases hk : -1 < k + 1 <;>
        simp [access_cache, access_at, access_set, scan, scan_body, locals_init, hidx, htag, hk]
    rw [List.replicate_succ]
    simp only [run, hstep]
    rw [ih (k + 1) (h + 1)]
    have e1 : k + 1 + (n : Int) = k + ((n : Int) + 1) := by ring
    have e2 : h + 1 + (n : Int) = h + ((n : Int) + 1) := by ring
    rw [e1, e2]
    rfl

/-- For every `n`, a trace of `n + 2` loads reaches a state in which a valid line has
timestamp `n`: timestamps are bounded by the length of the trace only. -/
theorem timestamps_grow (n : Nat) :
    run ⟨1, 2, 1⟩ (0 :: 4 :: List.replicate n 0) (init_state ⟨1, 2, 1⟩) =
      some ⟨⟨[⟨[⟨true, 0, if n = 0 then 1 else 0⟩, ⟨true, 1, n⟩]⟩,
        ⟨[⟨false, 0, 0⟩, ⟨false, 0, 0⟩]⟩]⟩, ⟨n, 2, 0⟩⟩ := by
  have h0 : run ⟨1, 2, 1⟩ [0, 4, 0] (init_state ⟨1, 2, 1⟩) =
      some ⟨⟨[⟨[⟨true, 0, 0⟩, ⟨true, 1, 1⟩]⟩, ⟨[⟨false, 0, 0⟩, ⟨false, 0, 0⟩]⟩]⟩,
        ⟨1, 2, 0⟩⟩ := by decide
  cases n with
  | zero => decide
  | succ n =>
    have e : (0 : Nat) :: 4 :: List.replicate (n + 1) 0 = [0, 4, 0] ++ List.replicate n 0 := by
      rw [List.replicate_succ]; rfl
    have happ : ∀ (xs ys : List Nat) (st st1 : sim_state), run ⟨1, 2, 1⟩ xs st = some st1 →
        run ⟨1, 2, 1⟩ (xs ++ ys) st = run ⟨1, 2, 1⟩ ys st1 := by
      intro xs
      induction xs with
      | nil => intro ys st st1 h; simp only [run, Option.some.injEq] at h; subst h; rfl
      | cons a xs ih =>
        intro ys st st1 h
        simp only [List.cons_append, run] at h ⊢
        cases hacc : access_cache ⟨1, 2, 1⟩ a st with
        | none => rw [hacc] at h; cases h
        | some st2 => rw [hacc] at h; simp only; exact ih ys st2 st1 h
    rw [e, happ _ _ _ _ h0, repeated_hits_age n 1 1]
    have e1 : (1 : Int) + (n : Int) = ((n + 1 : Nat) : Int) := by push_cast; ring
    rw [e1, if_neg (Nat.succ_ne_zero n)]

/-! ## The most recent line and the victim -/

theorem not_found_all_other (t : Nat) (xs : List cache_line) (c : counters)
    (hf : (scan t 0 xs locals_init c).2.1.line_found = false) :
    ∀ x ∈ xs, x.valid = true ∧ x.tag ≠ t := by
  have hnores : ¬ ∃ x ∈ xs, resolves t x := by
    intro hres
    have := (scan_found_iff t xs 0 locals_init c).2 (Or.inr hres)
    rw [hf] at this; cases this
  intro x hx
  have hx2 : ¬ resolves t x := fun hh => hnores ⟨x, hx, hh⟩
  unfold resolves at hx2
  constructor
  · cases hv : x.valid with
    | true => rfl
    | false => exact absurd (Or.inl hv) hx2
  · exact fun e => hx2 (Or.inr e)

theorem victim_line_not_found (E t : Nat) (set : cache_set) (c : counters) (k : Nat)
    (hlen : set.lines.length = E) (h : victim_line E t set c = some k) :
    (scan t 0 set.lines locals_init c).2.1.line_found = false := by
  unfold victim_line at h
  simp only [← hlen, List.take_length] at h
  cases hf : (scan t 0 set.lines locals_init c).2.1.line_found with
  | false => rfl
  | true => simp [hf] at h

/-- In a set that satisfies the invariant, the line written by the eviction branch has a
timestamp strictly above that of every other line. -/
theorem victim_strict (E t : Nat) (set : cache_set) (l : List Nat) (c : counters)
    (htr : tracks E set l) (k : Nat) (v : cache_line)
    (hvl : victim_line E t set c = some k) (hk : set.lines[k]? = some v) :
    ∀ (j : Nat) (y : cache_line), j ≠ k → set.lines[j]? = some y →
      y.timestamp < v.timestamp := by
  have hlen := tracks_length E set l htr
  have hts := tracks_nonneg E set l htr
  have hall := not_found_all_other t set.lines c (victim_line_not_found E t set c k hlen hvl)
  have hE : 1 ≤ E := by
    have := (List.getElem?_eq_some.1 hk).1
    omega
  obtain ⟨lines⟩ := set
  obtain ⟨k1, v1, hk1, hmax, _, _, hvl1, _⟩ := access_set_evict E t lines c hlen hE hall hts
  rw [hvl] at hvl1
  cases hvl1
  simp only at hk
  rw [hk] at hk1
  cases hk1
  intro j y hj hy
  have hle := hmax y (List.getElem?_mem hy)
  have hne : y.timestamp ≠ v.timestamp := by
    intro e
    exact hj (tracks_distinct E ⟨lines⟩ l htr j k y v hy hk
      (hall y (List.getElem?_mem hy)).1 (hall v (List.getElem?_mem hk)).1 e)
  omega

theorem run_frame (cfg : config) (j : Nat) (post : List Nat) :
    ∀ (st st1 : sim_state), run cfg post st = some st1 →
      (∀ x ∈ post, set_index cfg x ≠ j) →
      st1.sim_cache.sets[j]? = st.sim_cache.sets[j]? := by
  induction post with
  | nil =>
    intro st st1 h _
    simp only [run, Option.some.injEq] at h
    rw [h]
  | cons a rest ih =>
    intro st st1 h hne
    simp only [run] at h
    cases hacc : access_cache cfg a st with
    | none => rw [hacc] at h; cases h
    | some st2 =>
      rw [hacc] at h
      rw [ih st2 st1 h (fun x hx => hne x (List.mem_cons_of_mem _ hx))]
      exact access_cache_frame cfg a st st2 hacc j
        (Ne.symm (hne a (List.mem_cons_self _ _)))

/-- Right after a call of `access_cache` from a state that satisfies the invariant, the
target set has a line that holds the requested tag with timestamp 0. -/
theorem access_cache_fresh (cfg : config) (addr : Nat) (st st1 : sim_state)
    (m : Nat → List Nat) (htr : cache_tracks cfg.E (2 ^ cfg.s) st m)
    (h : access_cache cfg addr st = some st1) :
    ∃ set1 x, st1.sim_cache.sets[set_index cfg addr]? = some set1 ∧ x ∈ set1.lines ∧
      holds (tag_of cfg addr) x ∧ x.timestamp = 0 := by
  have hE := access_cache_pos cfg addr st st1 h
  obtain ⟨set, set1, hget, hacc, hsets⟩ := access_at_unfold _ _ _ st st1 h
  have hset := htr.2 _ set hget
  obtain ⟨set2, hacc2, _, _, ⟨x, hx, hholds⟩, _⟩ :=
    tracks_step cfg.E (tag_of cfg addr) set _ st.stats hE hset
  rw [hacc] at hacc2
  simp only [Option.some.injEq, Prod.mk.injEq] at hacc2
  rw [← hacc2.1] at hx
  have hlt : set_index cfg addr < st.sim_cache.sets.length :=
    (List.getElem?_eq_some.1 hget).1
  refine ⟨set1, x, by rw [hsets, List.getElem?_set_self hlt], hx, hholds, ?_⟩
  obtain ⟨k, hk⟩ := List.mem_iff_getElem?.1 hx
  rcases access_set_line_cases cfg.E _ set set1 st.stats st1.stats
    (tracks_length cfg.E set _ hset) hacc k x hk hholds.1 with h1 | ⟨y, _, _, hyt, e⟩
  · exact h1.1
  · exfalso
    apply hyt
    rw [← hholds.2, e]
    rfl

/-! ## Counting valid lines -/

theorem valid_lines_init (cfg : config) : valid_lines (init_state cfg).sim_cache = 0 := by
  have h0 : valid_count { lines := List.replicate cfg.E empty_line } = 0 := by
    simp [valid_count, List.countP_replicate, empty_line]
  simp [valid_lines, init_state, init_cache, List.map_replicate, h0]

theorem valid_lines_le (E S : Nat) (st : sim_state) (m : Nat → List Nat)
    (htr : cache_tracks E S st m) : valid_lines st.sim_cache ≤ S * E := by
  unfold valid_lines
  have hle : ∀ x ∈ st.sim_cache.sets.map valid_count, x ≤ E := by
    intro x hx
    obtain ⟨set, hset, e⟩ := List.mem_map.1 hx
    obtain ⟨idx, hidx⟩ := List.mem_iff_getElem?.1 hset
    have hlen := tracks_length E set _ (htr.2 idx set hidx)
    rw [← e, ← hlen]
    exact List.countP_le_length _
  have := List.sum_le_card_nsmul _ E hle
  rw [List.length_map, htr.1, smul_eq_mul] at this
  exact this

/-- In every reachable state `miss_count - eviction_count` is the number of valid lines of
the cache. -/
theorem reachable_count (cfg : config) (st : sim_state) (hr : reachable cfg st) :
    st.stats.miss_count - st.stats.eviction_count = (valid_lines st.sim_cache : Int) := by
  refine (reachable_induction cfg
    (fun st => st.stats.miss_count - st.stats.eviction_count =
      (valid_lines st.sim_cache : Int)) ?_ ?_ st hr).1
  · show (init_state cfg).stats.miss_count - (init_state cfg).stats.eviction_count =
      (valid_lines (init_state cfg).sim_cache : Int)
    rw [valid_lines_init]
    simp [init_state]
  · intro st0 st1 m addr hE htr hP hacc
    obtain ⟨set, set1, st2, hget, hat, hsets, hst, _, htr1, _⟩ :=
      access_at_step cfg.E (2 ^ cfg.s) (set_index cfg addr) (tag_of cfg addr) st0 m hE htr
        (set_index_lt cfg addr)
    have hat2 : access_cache cfg addr st0 = some st2 := hat
    rw [hacc] at hat2
    cases hat2
    have hlt : set_index cfg addr < st0.sim_cache.sets.length :=
      (List.getElem?_eq_some.1 hget).1
    have hget1 : st1.sim_cache.sets[set_index cfg addr]? = some set1 := by
      rw [hsets, List.getElem?_set_self hlt]
    have hc0 := tracks_valid_count cfg.E set _ (htr.2 _ set hget)
    have hc1 := tracks_valid_count cfg.E set1 _ (htr1.2 _ set1 hget1)
    rw [Function.update_same] at hc1
    have hsum := sum_map_set valid_count st0.sim_cache.sets (set_index cfg addr) set1 set hget
    have hv1 : valid_lines st1.sim_cache + valid_count set =
        valid_lines st0.sim_cache + valid_count set1 := by
      unfold valid_lines
      rw [hsets]
      exact hsum
    obtain ⟨l1, l2, l3⟩ := lru_access_length cfg.E (tag_of cfg addr) (m (set_index cfg addr))
    have hv2 : (valid_lines st1.sim_cache : Int) + (valid_count set : Int) =
        (valid_lines st0.sim_cache : Int) + (valid_count set1 : Int) := by
      exact_mod_cast hv1
    rw [hc0, hc1] at hv2
    rw [hst]
    cases ho : (lru_access cfg.E (tag_of cfg addr) (m (set_index cfg addr))).1 with
    | hit =>
      have := l1 ho
      simp only [record_outcome]
      omega
    | miss =>
      have := l2 ho
      simp only [record_outcome]
      omega
    | miss_evict v =>
      have := l3 v ho
      simp only [record_outcome]
      omega

/-! ## The eviction branch on an arbitrary set of valid lines -/

/-- C1: for every configuration with `E >= 1` and every finite trace replayed by the loop of
`main` from the cache of `init_cache` with the counters at 0, the replay runs to its end and
the final counters satisfy `hit_count + miss_count = #L + #S + 2 * #M`; records of any other
kind contribute nothing. -/
theorem C1_hits_plus_misses (cfg : config) (hE : 1 ≤ cfg.E) (trace : List record) :
    ∃ st, main_loop cfg trace (init_state cfg) = some st ∧
      st.stats.hit_count + st.stats.miss_count =
        ((trace.countP (fun r => r.access_type == 'L') : Nat) : Int) +
          ((trace.countP (fun r => r.access_type == 'S') : Nat) : Int) +
          2 * ((trace.countP (fun r => r.access_type == 'M') : Nat) : Int) := by
  obtain ⟨st1, m1, hloop, _, hc⟩ :=
    main_loop_counts cfg hE trace (init_state cfg) _ (init_tracks cfg)
  refine ⟨st1, hloop, ?_⟩
  rw [hc]
  simp [init_state]

theorem C1_hits_plus_misses_witness :
    1 ≤ (⟨1, 2, 1⟩ : config).E ∧
    ∃ st, main_loop ⟨1, 2, 1⟩ [⟨'L', 16⟩, ⟨'M', 32⟩, ⟨'I', 64⟩, ⟨'S', 16⟩] (init_state ⟨1, 2, 1⟩)
        = some st ∧
      st.stats.hit_count + st.stats.miss_count =
        ((([⟨'L', 16⟩, ⟨'M', 32⟩, ⟨'I', 64⟩, ⟨'S', 16⟩] : List record).countP
            (fun r => r.access_type == 'L') : Nat) : Int) +
          ((([⟨'L', 16⟩, ⟨'M', 32⟩, ⟨'I', 64⟩, ⟨'S', 16⟩] : List record).countP
            (fun r => r.access_type == 'S') : Nat) : Int) +
          2 * ((([⟨'L', 16⟩, ⟨'M', 32⟩, ⟨'I', 64⟩, ⟨'S', 16⟩] : List record).countP
            (fun r => r.access_type == 'M') : Nat) : Int) :=
  ⟨by decide, C1_hits_plus_misses ⟨1, 2, 1⟩ (by decide) _⟩

/-- C2: for every `E >= 1` and every finite sequence of accesses `(set index, tag)` with set
indices inside the cache, applied by `access_cache` from the state of `init_cache`, every
access succeeds and the sequence of outcomes (hit, miss without eviction, miss with eviction
and the tag evicted) is that of the reference LRU model `lru_outcomes`. -/
theorem C2_lru_refinement (cfg : config) (hE : 1 ≤ cfg.E) (accesses : List (Nat × Nat))
    (hidx : ∀ a ∈ accesses, a.1 < 2 ^ cfg.s) :
    outcomes cfg.E accesses (init_state cfg) =
      some (lru_outcomes cfg.E accesses (fun _ => [])) :=
  outcomes_refine cfg.E (2 ^ cfg.s) hE accesses (init_state cfg) _ (init_tracks cfg) hidx

theorem C2_lru_refinement_witness :
    1 ≤ (⟨1, 2, 1⟩ : config).E ∧
    (∀ a ∈ [(0, 5), (0, 6), (1, 5), (0, 5), (0, 7), (0, 6)], a.1 < 2 ^ (⟨1, 2, 1⟩ : config).s) ∧
    outcomes (⟨1, 2, 1⟩ : config).E [(0, 5), (0, 6), (1, 5), (0, 5), (0, 7), (0, 6)]
        (init_state ⟨1, 2, 1⟩) =
      some (lru_outcomes (⟨1, 2, 1⟩ : config).E
        [(0, 5), (0, 6), (1, 5), (0, 5), (0, 7), (0, 6)] (fun _ => [])) :=
  ⟨by decide, by decide, C2_lru_refinement ⟨1, 2, 1⟩ (by decide) _ (by decide)⟩

/-- C3: in every state reachable from `init_cache` (with `E >= 1`) and for every address,
`access_cache` succeeds and raises `eviction_count` by 1 if and only if the target set has no
invalid line and no valid line of that set holds the requested tag; otherwise
`eviction_count` is unchanged. -/
theorem C3_eviction_iff (cfg : config) (hE : 1 ≤ cfg.E) (st : sim_state)
    (hr : reachable cfg st) (addr : Nat) :
    ∃ set st1, st.sim_cache.sets[set_index cfg addr]? = some set ∧
      access_cache cfg addr st = some st1 ∧
      (st1.stats.eviction_count = st.stats.eviction_count + 1 ↔
        (∀ x ∈ set.lines, x.valid = true) ∧ ∀ x ∈ set.lines, ¬ holds (tag_of cfg addr) x) ∧
      (st1.stats.eviction_count = st.stats.eviction_count + 1 ∨
        st1.stats.eviction_count = st.stats.eviction_count) := by
  obtain ⟨m, h⟩ := reachable_tracks cfg hE st hr
  obtain ⟨set, set1, st1, hget, hat, _, hst, _, _, _, _, hev⟩ :=
    access_at_step cfg.E (2 ^ cfg.s) (set_index cfg addr) (tag_of cfg addr) st m hE h
      (set_index_lt cfg addr)
  refine ⟨set, st1, hget, hat, ?_, ?_⟩
  · rw [← hev, hst]
    cases (lru_access cfg.E (tag_of cfg addr) (m (set_index cfg addr))).1 <;>
      simp [record_outcome]
  · rw [hst]
    cases (lru_access cfg.E (tag_of cfg addr) (m (set_index cfg addr))).1 <;>
      simp [record_outcome]

theorem C3_eviction_iff_witness :
    1 ≤ (⟨1, 1, 1⟩ : config).E ∧
    reachable ⟨1, 1, 1⟩
      ⟨⟨[⟨[⟨true, 4, 0⟩]⟩, ⟨[⟨false, 0, 0⟩]⟩]⟩, ⟨0, 1, 0⟩⟩ ∧
    ∃ set st1,
      (⟨⟨[⟨[⟨true, 4, 0⟩]⟩, ⟨[⟨false, 0, 0⟩]⟩]⟩, ⟨0, 1, 0⟩⟩ : sim_state).sim_cache.sets[
          set_index ⟨1, 1, 1⟩ 32]? = some set ∧
      access_cache ⟨1, 1, 1⟩ 32 ⟨⟨[⟨[⟨true, 4, 0⟩]⟩, ⟨[⟨false, 0, 0⟩]⟩]⟩, ⟨0, 1, 0⟩⟩ = some st1 ∧
      (st1.stats.eviction_count =
          (⟨⟨[⟨[⟨true, 4, 0⟩]⟩, ⟨[⟨false, 0, 0⟩]⟩]⟩, ⟨0, 1, 0⟩⟩ : sim_state).stats.eviction_count
            + 1 ↔
        (∀ x ∈ set.lines, x.valid = true) ∧
          ∀ x ∈ set.lines, ¬ holds (tag_of ⟨1, 1, 1⟩ 32) x) ∧
      (st1.stats.eviction_count =
          (⟨⟨[⟨[⟨true, 4, 0⟩]⟩, ⟨[⟨false, 0, 0⟩]⟩]⟩, ⟨0, 1, 0⟩⟩ : sim_state).stats.eviction_count
            + 1 ∨
        st1.stats.eviction_count =
          (⟨⟨[⟨[⟨true, 4, 0⟩]⟩, ⟨[⟨false, 0, 0⟩]⟩]⟩, ⟨0, 1, 0⟩⟩ : sim_state).stats.eviction_count) :=
  ⟨by decide, ⟨[16], by decide⟩,
    C3_eviction_iff ⟨1, 1, 1⟩ (by decide) _ ⟨[16], by decide⟩ 32⟩

/-- C4: for every `E >= 1`, every state reachable from `init_cache` and every address, when
`access_cache` is called with the address, then with any addresses that go to other sets or
carry the same tag, then with the address again, the last call is a hit (`hit_count + 1`,
`miss_count` and `eviction_count` unchanged); in particular the second access of an `M`
record is a hit on what the first access left. -/
theorem C4_second_access_hits (cfg : config) (hE : 1 ≤ cfg.E) (st : sim_state)
    (hr : reachable cfg st) (addr : Nat) (mid : List Nat)
    (hmid : ∀ a ∈ mid, set_index cfg a ≠ set_index cfg addr ∨ tag_of cfg a = tag_of cfg addr) :
    (∃ st1 st2 st3, access_cache cfg addr st = some st1 ∧ run cfg mid st1 = some st2 ∧
      access_cache cfg addr st2 = some st3 ∧
      st3.stats.hit_count = st2.stats.hit_count + 1 ∧
      st3.stats.miss_count = st2.stats.miss_count ∧
      st3.stats.eviction_count = st2.stats.eviction_count) ∧
    (∃ st1 st3, access_cache cfg addr st = some st1 ∧
      main_step cfg ⟨'M', addr⟩ st = some st3 ∧
      st3.stats.hit_count = st1.stats.hit_count + 1 ∧
      st3.stats.miss_count = st1.stats.miss_count ∧
      st3.stats.eviction_count = st1.stats.eviction_count) := by
  refine ⟨second_access_hits cfg hE st hr addr mid hmid, ?_⟩
  obtain ⟨st1, st2, st3, h1, h2, h3, e1, e2, e3⟩ :=
    second_access_hits cfg hE st hr addr [] (by simp)
  simp only [run, Option.some.injEq] at h2
  subst h2
  refine ⟨st1, st3, h1, ?_, e1, e2, e3⟩
  simp [main_step, h1, h3]

theorem C4_second_access_hits_witness :
    1 ≤ (⟨1, 1, 1⟩ : config).E ∧
    reachable ⟨1, 1, 1⟩ ⟨⟨[⟨[⟨true, 4, 0⟩]⟩, ⟨[⟨false, 0, 0⟩]⟩]⟩, ⟨0, 1, 0⟩⟩ ∧
    (∀ a ∈ [34, 32, 2], set_index ⟨1, 1, 1⟩ a ≠ set_index ⟨1, 1, 1⟩ 32 ∨
      tag_of ⟨1, 1, 1⟩ a = tag_of ⟨1, 1, 1⟩ 32) ∧
    ((∃ st1 st2 st3,
      access_cache ⟨1, 1, 1⟩ 32 ⟨⟨[⟨[⟨true, 4, 0⟩]⟩, ⟨[⟨false, 0, 0⟩]⟩]⟩, ⟨0, 1, 0⟩⟩ = some st1 ∧
      run ⟨1, 1, 1⟩ [34, 32, 2] st1 = some st2 ∧
      access_cache ⟨1, 1, 1⟩ 32 st2 = some st3 ∧
      st3.stats.hit_count = st2.stats.hit_count + 1 ∧
      st3.stats.miss_count = st2.stats.miss_count ∧
      st3.stats.eviction_count = st2.stats.eviction_count) ∧
    (∃ st1 st3,
      access_cache ⟨1, 1, 1⟩ 32 ⟨⟨[⟨[⟨true, 4, 0⟩]⟩, ⟨[⟨false, 0, 0⟩]⟩]⟩, ⟨0, 1, 0⟩⟩ = some st1 ∧
      main_step ⟨1, 1, 1⟩ ⟨'M', 32⟩ ⟨⟨[⟨[⟨true, 4, 0⟩]⟩, ⟨[⟨false, 0, 0⟩]⟩]⟩, ⟨0, 1, 0⟩⟩
        = some st3 ∧
      st3.stats.hit_count = st1.stats.hit_count + 1 ∧
      st3.stats.miss_count = st1.stats.miss_count ∧
      st3.stats.eviction_count = st1.stats.eviction_count)) :=
  ⟨by decide, ⟨[16], by decide⟩, by decide,
    C4_second_access_hits ⟨1, 1, 1⟩ (by decide) _ ⟨[16], by decide⟩ 32 [34, 32, 2] (by decide)⟩

/-- C5 as stated fails: in the set `[invalid, valid with tag 7]` a valid line holds the
requested tag 7, yet `access_cache` first fills line 0 (a miss, and line 0 changes its valid
bit and tag) and then counts the hit on line 1. -/
theorem C5_counterexample :
    (∃ x ∈ (⟨[⟨false, 0, 0⟩, ⟨true, 7, 3⟩]⟩ : cache_set).lines, holds 7 x) ∧
    access_set 2 7 ⟨[⟨false, 0, 0⟩, ⟨true, 7, 3⟩]⟩ ⟨0, 0, 0⟩ =
      some (⟨[⟨true, 7, 0⟩, ⟨true, 7, 0⟩]⟩, ⟨1, 1, 0⟩) ∧
    (⟨1, 1, 0⟩ : counters).miss_count ≠ (⟨0, 0, 0⟩ : counters).miss_count := by
  decide

/-- C5, amended: for every correctly sized set in which a valid line `m` holds the requested
tag, every line before it is valid with another tag, and no line after it holds the tag,
`access_cache` counts a hit only (`hit_count + 1`, `miss_count` and `eviction_count`
unchanged), resets the timestamp of `m` to 0, and changes no valid bit and no tag. -/
theorem C5_hit_only (E tag : Nat) (pre post : List cache_line) (m : cache_line) (c : counters)
    (hlen : (pre ++ m :: post).length = E)
    (hpre : ∀ x ∈ pre, x.valid = true ∧ x.tag ≠ tag) (hm : holds tag m)
    (hpost : ∀ x ∈ post, ¬ holds tag x) :
    ∃ set1, access_set E tag { lines := pre ++ m :: post } c =
        some (set1, ⟨c.hit_count + 1, c.miss_count, c.eviction_count⟩) ∧
      set1.lines[pre.length]? = some { m with timestamp := 0 } ∧
      set1.lines.map cache_line.valid = (pre ++ m :: post).map cache_line.valid ∧
      set1.lines.map cache_line.tag = (pre ++ m :: post).map cache_line.tag := by
  obtain ⟨hacc, _, _⟩ := access_set_hit E tag pre post m c hlen hpre hm hpost
  refine ⟨_, hacc, ?_, ?_, ?_⟩
  · have e : pre.length = (pre.map aged).length := by simp
    simp only
    rw [e, getElem?_split_at]
    rfl
  · have h1 : (pre.map aged).map cache_line.valid = pre.map cache_line.valid := by
      simp [List.map_map, Function.comp_def, aged]
    have h2 : (post.map (after_found tag)).map cache_line.valid =
        post.map cache_line.valid := by
      rw [List.map_map]
      apply List.map_congr_left
      intro x _
      exact (valid_after_found tag x).1
    simp only [List.map_append, List.map_cons, h1, h2]
    rfl
  · have h1 : (pre.map aged).map cache_line.tag = pre.map cache_line.tag := map_tag_aged pre
    have h2 : (post.map (after_found tag)).map cache_line.tag = post.map cache_line.tag := by
      rw [List.map_map]
      apply List.map_congr_left
      intro x _
      exact (valid_after_found tag x).2
    simp only [List.map_append, List.map_cons, h1, h2]
    rfl

theorem C5_hit_only_witness :
    ([cache_line.mk true 5 1] ++ cache_line.mk true 7 3 :: [cache_line.mk false 0 0]).length = 3 ∧
    (∀ x ∈ [(⟨true, 5, 1⟩ : cache_line)], x.valid = true ∧ x.tag ≠ 7) ∧
    holds 7 ⟨true, 7, 3⟩ ∧
    (∀ x ∈ [(⟨false, 0, 0⟩ : cache_line)], ¬ holds 7 x) ∧
    ∃ set1, access_set 3 7
        { lines := [cache_line.mk true 5 1] ++ cache_line.mk true 7 3 :: [cache_line.mk false 0 0] } ⟨4, 2, 1⟩ =
        some (set1, ⟨(⟨4, 2, 1⟩ : counters).hit_count + 1, (⟨4, 2, 1⟩ : counters).miss_count,
          (⟨4, 2, 1⟩ : counters).eviction_count⟩) ∧
      set1.lines[[(⟨true, 5, 1⟩ : cache_line)].length]? =
        some { (⟨true, 7, 3⟩ : cache_line) with timestamp := 0 } ∧
      set1.lines.map cache_line.valid =
        ([cache_line.mk true 5 1] ++ cache_line.mk true 7 3 :: [cache_line.mk false 0 0]).map
          cache_line.valid ∧
      set1.lines.map cache_line.tag =
        ([cache_line.mk true 5 1] ++ cache_line.mk true 7 3 :: [cache_line.mk false 0 0]).map
          cache_line.tag :=
  ⟨by decide, by decide, by decide, by decide,
    C5_hit_only 3 7 [⟨true, 5, 1⟩] [⟨false, 0, 0⟩] ⟨true, 7, 3⟩ ⟨4, 2, 1⟩ (by decide)
      (by decide) (by decide) (by decide)⟩

/-- C6: for every correctly sized set (reachable or not) in which no valid line holds the
requested tag and some line is invalid, `access_cache` selects the invalid line of lowest
index `k`, makes it valid with the requested tag and timestamp 0, leaves every other invalid
line as it was, and raises `miss_count` by 1 with `hit_count` and `eviction_count`
unchanged. -/
theorem C6_miss_fill (E tag : Nat) (set : cache_set) (c : counters)
    (hlen : set.lines.length = E) (hno : ∀ x ∈ set.lines, ¬ holds tag x)
    (hinv : ∃ x ∈ set.lines, x.valid = false) :
    ∃ (k : Nat) (v : cache_line) (set1 : cache_set),
      set.lines[k]? = some v ∧ v.valid = false ∧
      (∀ (j : Nat) (y : cache_line), j < k → set.lines[j]? = some y → y.valid = true) ∧
      access_set E tag set c =
        some (set1, ⟨c.hit_count, c.miss_count + 1, c.eviction_count⟩) ∧
      set1.lines[k]? = some ⟨true, tag, 0⟩ ∧
      (∀ (j : Nat) (y : cache_line), j ≠ k → set.lines[j]? = some y → y.valid = false →
        set1.lines[j]? = some y) := by
  obtain ⟨pre, v, post, hsplit, hpre, hv⟩ := first_invalid_split set.lines hinv
  obtain ⟨lines⟩ := set
  simp only at hsplit hlen hno hinv ⊢
  subst hsplit
  have hpre2 : ∀ x ∈ pre, x.valid = true ∧ x.tag ≠ tag :=
    fun x hx => ⟨hpre x hx, fun e => hno x (List.mem_append_left _ hx) ⟨hpre x hx, e⟩⟩
  have hpost : ∀ x ∈ post, ¬ holds tag x :=
    fun x hx => hno x (List.mem_append_right _ (List.mem_cons_of_mem _ hx))
  obtain ⟨hacc, _, hvl⟩ := access_set_fill E tag pre post v c hlen hpre2 hv hpost
  have hbefore : ∀ (j : Nat) (y : cache_line), j < pre.length →
      (pre ++ v :: post)[j]? = some y → y.valid = true := by
    intro j y hj hy
    rw [getElem?_split_before pre post v j hj] at hy
    exact hpre y (List.getElem?_mem hy)
  refine ⟨pre.length, v, _, getElem?_split_at pre post v, hv, hbefore, hacc, ?_, ?_⟩
  · have e : pre.length = (pre.map aged).length := by simp
    simp only
    rw [e, getElem?_split_at]
    rfl
  · intro j y hj hy hyv
    rw [access_set_lines E tag _ _ c _ hlen hacc j (by rw [hvl]; simp)]
    refine (scan_line tag (pre ++ v :: post) 0 locals_init c j y hy).2.1 hyv (Or.inr ?_)
    have hjk : pre.length < j := by
      rcases Nat.lt_or_ge j pre.length with h1 | h1
      · have := hbefore j y h1 hy
        rw [hyv] at this; cases this
      · omega
    exact ⟨pre.length, v, hjk, getElem?_split_at pre post v, Or.inl hv⟩

theorem C6_miss_fill_witness :
    (⟨[⟨true, 5, 1⟩, ⟨false, 0, 0⟩, ⟨false, 0, 0⟩]⟩ : cache_set).lines.length = 3 ∧
    (∀ x ∈ (⟨[⟨true, 5, 1⟩, ⟨false, 0, 0⟩, ⟨false, 0, 0⟩]⟩ : cache_set).lines, ¬ holds 7 x) ∧
    (∃ x ∈ (⟨[⟨true, 5, 1⟩, ⟨false, 0, 0⟩, ⟨false, 0, 0⟩]⟩ : cache_set).lines,
      x.valid = false) ∧
    ∃ (k : Nat) (v : cache_line) (set1 : cache_set),
      (⟨[⟨true, 5, 1⟩, ⟨false, 0, 0⟩, ⟨false, 0, 0⟩]⟩ : cache_set).lines[k]? = some v ∧
      v.valid = false ∧
      (∀ (j : Nat) (y : cache_line), j < k →
        (⟨[⟨true, 5, 1⟩, ⟨false, 0, 0⟩, ⟨false, 0, 0⟩]⟩ : cache_set).lines[j]? = some y →
        y.valid = true) ∧
      access_set 3 7 ⟨[⟨true, 5, 1⟩, ⟨false, 0, 0⟩, ⟨false, 0, 0⟩]⟩ ⟨4, 2, 1⟩ =
        some (set1, ⟨(⟨4, 2, 1⟩ : counters).hit_count, (⟨4, 2, 1⟩ : counters).miss_count + 1,
          (⟨4, 2, 1⟩ : counters).eviction_count⟩) ∧
      set1.lines[k]? = some ⟨true, 7, 0⟩ ∧
      (∀ (j : Nat) (y : cache_line), j ≠ k →
        (⟨[⟨true, 5, 1⟩, ⟨false, 0, 0⟩, ⟨false, 0, 0⟩]⟩ : cache_set).lines[j]? = some y →
        y.valid = false → set1.lines[j]? = some y) :=
  ⟨by decide, by decide, by decide,
    C6_miss_fill 3 7 ⟨[⟨true, 5, 1⟩, ⟨false, 0, 0⟩, ⟨false, 0, 0⟩]⟩ ⟨4, 2, 1⟩ (by decide)
      (by decide) (by decide)⟩

/-- C8: on every correctly sized set, whenever `access_cache` completes (it does when
`E >= 1` and no timestamp is negative) and whichever outcome occurs, every line that was
valid, does not hold the requested tag (is not the hit line) and is not the line written by
the eviction branch has its timestamp raised by exactly 1 with valid bit and tag kept; every
invalid line that the scan reaches after a line that is invalid or carries the tag (so it is
not the filled line) is unchanged, and an invalid line that is still invalid afterwards is
unchanged. -/
theorem C8_ageing (E tag : Nat) (set : cache_set) (c : counters)
    (hlen : set.lines.length = E) :
    (1 ≤ E → (∀ x ∈ set.lines, 0 ≤ x.timestamp) → ∃ r, access_set E tag set c = some r) ∧
    ∀ (set1 : cache_set) (c1 : counters), access_set E tag set c = some (set1, c1) →
      ∀ (i : Nat) (x : cache_line), set.lines[i]? = some x →
        (x.valid = true → x.tag ≠ tag → victim_line E tag set c ≠ some i →
          set1.lines[i]? = some { x with timestamp := x.timestamp + 1 }) ∧
        (x.valid = false →
          (∃ (j : Nat) (y : cache_line), j < i ∧ set.lines[j]? = some y ∧ resolves tag y) →
          set1.lines[i]? = some x) ∧
        (x.valid = false → ∀ z, set1.lines[i]? = some z → z.valid = false → z = x) := by
  refine ⟨fun hE hts => access_set_total E tag set c hlen hE hts, ?_⟩
  intro set1 c1 hacc i x hx
  obtain ⟨s1, s2, s3⟩ := scan_line tag set.lines 0 locals_init c i x hx
  have hinv : x.valid = false → victim_line E tag set c ≠ some i := by
    intro hv
    rw [victim_line_none_of_resolves E tag set c hlen
      ⟨x, List.getElem?_mem hx, Or.inl hv⟩]
    simp
  refine ⟨?_, ?_, ?_⟩
  · intro hv ht hvl
    rw [access_set_lines E tag set set1 c c1 hlen hacc i hvl, s1 hv]
    simp [after_found, hv, ht, aged]
  · intro hv hearlier
    rw [access_set_lines E tag set set1 c c1 hlen hacc i (hinv hv)]
    exact s2 hv (Or.inr hearlier)
  · intro hv z hz hzv
    rw [access_set_lines E tag set set1 c c1 hlen hacc i (hinv hv)] at hz
    by_cases hearlier : ∃ (j : Nat) (y : cache_line),
        j < i ∧ set.lines[j]? = some y ∧ resolves tag y
    · rw [s2 hv (Or.inr hearlier)] at hz
      cases hz; rfl
    · rw [s3 hv rfl (fun j y hj hy hres => hearlier ⟨j, y, hj, hy, hres⟩)] at hz
      cases hz
      simp [filled] at hzv

theorem C8_ageing_witness :
    (⟨[⟨true, 5, 1⟩, ⟨true, 6, 4⟩, ⟨false, 0, 0⟩, ⟨false, 0, 0⟩]⟩ : cache_set).lines.length
      = 4 ∧
    (1 ≤ 4 →
      (∀ x ∈ (⟨[⟨true, 5, 1⟩, ⟨true, 6, 4⟩, ⟨false, 0, 0⟩, ⟨false, 0, 0⟩]⟩ : cache_set).lines,
        0 ≤ x.timestamp) →
      ∃ r, access_set 4 7 ⟨[⟨true, 5, 1⟩, ⟨true, 6, 4⟩, ⟨false, 0, 0⟩, ⟨false, 0, 0⟩]⟩
        ⟨4, 2, 1⟩ = some r) ∧
    ∀ (set1 : cache_set) (c1 : counters),
      access_set 4 7 ⟨[⟨true, 5, 1⟩, ⟨true, 6, 4⟩, ⟨false, 0, 0⟩, ⟨false, 0, 0⟩]⟩ ⟨4, 2, 1⟩ =
        some (set1, c1) →
      ∀ (i : Nat) (x : cache_line),
        (⟨[⟨true, 5, 1⟩, ⟨true, 6, 4⟩, ⟨false, 0, 0⟩, ⟨false, 0, 0⟩]⟩ : cache_set).lines[i]?
          = some x →
        (x.valid = true → x.tag ≠ 7 →
          victim_line 4 7 ⟨[⟨true, 5, 1⟩, ⟨true, 6, 4⟩, ⟨false, 0, 0⟩, ⟨false, 0, 0⟩]⟩
            ⟨4, 2, 1⟩ ≠ some i →
          set1.lines[i]? = some { x with timestamp := x.timestamp + 1 }) ∧
        (x.valid = false →
          (∃ (j : Nat) (y : cache_line), j < i ∧
            (⟨[⟨true, 5, 1⟩, ⟨true, 6, 4⟩, ⟨false, 0, 0⟩, ⟨false, 0, 0⟩]⟩ :
              cache_set).lines[j]? = some y ∧ resolves 7 y) →
          set1.lines[i]? = some x) ∧
        (x.valid = false → ∀ z, set1.lines[i]? = some z → z.valid = false → z = x) :=
  ⟨by decide,
    C8_ageing 4 7 ⟨[⟨true, 5, 1⟩, ⟨true, 6, 4⟩, ⟨false, 0, 0⟩, ⟨false, 0, 0⟩]⟩ ⟨4, 2, 1⟩
      (by decide)⟩

/-- C9 fails on the code: with `s = 1`, `b = 1`, `E = 1` the addresses `0x0` and
`0x400000000` go to set 0 and differ in `addr >> (s + b)` (0 and `2 ^ 32`), but the local
`int tag` is 0 for both, so the second access is counted as a hit on the line filled by the
first. -/
theorem C9_tag_truncated :
    set_index ⟨1, 1, 1⟩ 0x0 = 0 ∧ set_index ⟨1, 1, 1⟩ 0x400000000 = 0 ∧
    (0x0 >>> (1 + 1) = 0 ∧ 0x400000000 >>> (1 + 1) = 2 ^ 32) ∧
    0x400000000 < 2 ^ 64 ∧
    tag_of ⟨1, 1, 1⟩ 0x0 = 0 ∧ tag_of ⟨1, 1, 1⟩ 0x400000000 = 0 ∧
    run ⟨1, 1, 1⟩ [0x0] (init_state ⟨1, 1, 1⟩) =
      some ⟨⟨[⟨[⟨true, 0, 0⟩]⟩, ⟨[⟨false, 0, 0⟩]⟩]⟩, ⟨0, 1, 0⟩⟩ ∧
    run ⟨1, 1, 1⟩ [0x0, 0x400000000] (init_state ⟨1, 1, 1⟩) =
      some ⟨⟨[⟨[⟨true, 0, 0⟩]⟩, ⟨[⟨false, 0, 0⟩]⟩]⟩, ⟨1, 1, 0⟩⟩ := by
  decide

/-- C10: for every address and every configuration with `s <= 30` (and `s + b <= 63`, the
address below `2 ^ 64`), the set index of `access_cache` equals `(addr >> b) mod 2 ^ s`,
lies below `2 ^ s`, which is the number of sets that `init_cache` allocates, so the set is
found; the conversions to `int` of `1 << s` and of the index lose nothing. -/
theorem C10_set_index (cfg : config) (addr : Nat) (hs : cfg.s ≤ 30)
    (_hsb : cfg.s + cfg.b ≤ 63) (_haddr : addr < 2 ^ 64) :
    set_index cfg addr = (addr >>> cfg.b) % 2 ^ cfg.s ∧
    set_index cfg addr = (addr / 2 ^ cfg.b) % 2 ^ cfg.s ∧
    set_index cfg addr < 2 ^ cfg.s ∧
    (init_cache cfg.s cfg.E cfg.b).sets.length = 2 ^ cfg.s ∧
    (∃ set, (init_cache cfg.s cfg.E cfg.b).sets[set_index cfg addr]? = some set) ∧
    to_int (2 ^ cfg.s) = ((2 ^ cfg.s : Nat) : Int) ∧
    to_int (set_index cfg addr) = ((set_index cfg addr : Nat) : Int) := by
  have hpow : 2 ^ cfg.s < 2 ^ 31 := Nat.pow_lt_pow_right (by decide) (by omega)
  have hlt := set_index_lt cfg addr
  refine ⟨set_index_eq_mod cfg addr, ?_, hlt, by simp [init_cache], ?_,
    to_int_small _ hpow, to_int_small _ (by omega)⟩
  · rw [set_index_eq_mod, Nat.shiftRight_eq_div_pow]
  · refine ⟨_, List.getElem?_eq_getElem ?_⟩
    simpa [init_cache] using hlt

theorem C10_set_index_witness :
    (⟨4, 2, 3⟩ : config).s ≤ 30 ∧ (⟨4, 2, 3⟩ : config).s + (⟨4, 2, 3⟩ : config).b ≤ 63 ∧
    0x7ff000abc < 2 ^ 64 ∧
    (set_index ⟨4, 2, 3⟩ 0x7ff000abc = (0x7ff000abc >>> (⟨4, 2, 3⟩ : config).b) %
      2 ^ (⟨4, 2, 3⟩ : config).s ∧
    set_index ⟨4, 2, 3⟩ 0x7ff000abc = (0x7ff000abc / 2 ^ (⟨4, 2, 3⟩ : config).b) %
      2 ^ (⟨4, 2, 3⟩ : config).s ∧
    set_index ⟨4, 2, 3⟩ 0x7ff000abc < 2 ^ (⟨4, 2, 3⟩ : config).s ∧
    (init_cache (⟨4, 2, 3⟩ : config).s (⟨4, 2, 3⟩ : config).E
      (⟨4, 2, 3⟩ : config).b).sets.length = 2 ^ (⟨4, 2, 3⟩ : config).s ∧
    (∃ set, (init_cache (⟨4, 2, 3⟩ : config).s (⟨4, 2, 3⟩ : config).E
      (⟨4, 2, 3⟩ : config).b).sets[set_index ⟨4, 2, 3⟩ 0x7ff000abc]? = some set) ∧
    to_int (2 ^ (⟨4, 2, 3⟩ : config).s) = ((2 ^ (⟨4, 2, 3⟩ : config).s : Nat) : Int) ∧
    to_int (set_index ⟨4, 2, 3⟩ 0x7ff000abc) = ((set_index ⟨4, 2, 3⟩ 0x7ff000abc : Nat) : Int)) :=
  ⟨by decide, by decide, by decide, C10_set_index ⟨4, 2, 3⟩ 0x7ff000abc (by decide) (by decide)
    (by decide)⟩

/-- C11: in every cache state, reachable or not, a call of `access_cache` that completes
keeps the number of sets and leaves every set other than the one selected by the set index of
the address exactly as it was (the call completes in every reachable state when
`E >= 1`). -/
theorem C11_frame (cfg : config) (addr : Nat) (st : sim_state) :
    (1 ≤ cfg.E → reachable cfg st → ∃ st1, access_cache cfg addr st = some st1) ∧
    ∀ st1, access_cache cfg addr st = some st1 →
      st1.sim_cache.sets.length = st.sim_cache.sets.length ∧
      ∀ j, j ≠ set_index cfg addr → st1.sim_cache.sets[j]? = st.sim_cache.sets[j]? := by
  constructor
  · intro hE hr
    obtain ⟨m, h⟩ := reachable_tracks cfg hE st hr
    obtain ⟨st1, _, _, hacc, _⟩ := access_cache_step cfg addr st m hE h
    exact ⟨st1, hacc⟩
  · intro st1 h
    unfold access_cache access_at at h
    cases hget : st.sim_cache.sets[set_index cfg addr]? with
    | none => rw [hget] at h; cases h
    | some set =>
      rw [hget] at h
      cases hacc : access_set cfg.E (tag_of cfg addr) set st.stats with
      | none => simp only [hacc] at h; cases h
      | some r =>
        simp only [hacc, Option.some.injEq] at h
        subst h
        refine ⟨by simp, ?_⟩
        intro j hj
        simp only
        rw [List.getElem?_set_ne (Ne.symm hj)]

theorem C11_frame_witness :
    (1 ≤ (⟨1, 1, 1⟩ : config).E →
      reachable ⟨1, 1, 1⟩ ⟨⟨[⟨[⟨true, 4, 0⟩]⟩, ⟨[⟨true, 9, 0⟩]⟩]⟩, ⟨0, 2, 0⟩⟩ →
      ∃ st1, access_cache ⟨1, 1, 1⟩ 32
        ⟨⟨[⟨[⟨true, 4, 0⟩]⟩, ⟨[⟨true, 9, 0⟩]⟩]⟩, ⟨0, 2, 0⟩⟩ = some st1) ∧
    ∀ st1, access_cache ⟨1, 1, 1⟩ 32
        ⟨⟨[⟨[⟨true, 4, 0⟩]⟩, ⟨[⟨true, 9, 0⟩]⟩]⟩, ⟨0, 2, 0⟩⟩ = some st1 →
      st1.sim_cache.sets.length =
        (⟨⟨[⟨[⟨true, 4, 0⟩]⟩, ⟨[⟨true, 9, 0⟩]⟩]⟩, ⟨0, 2, 0⟩⟩ : sim_state).sim_cache.sets.length ∧
      ∀ j, j ≠ set_index ⟨1, 1, 1⟩ 32 → st1.sim_cache.sets[j]? =
        (⟨⟨[⟨[⟨true, 4, 0⟩]⟩, ⟨[⟨true, 9, 0⟩]⟩]⟩, ⟨0, 2, 0⟩⟩ : sim_state).sim_cache.sets[j]? :=
  C11_frame ⟨1, 1, 1⟩ 32 ⟨⟨[⟨[⟨true, 4, 0⟩]⟩, ⟨[⟨true, 9, 0⟩]⟩]⟩, ⟨0, 2, 0⟩⟩

/-- C12: with `E = 2` and a single set, from the empty set, the accesses to tags `A`, `B`,
`A`, `C` (pairwise distinct) give the outcomes miss, miss, hit, miss with eviction of `B`,
and leave the set holding exactly `A` (line 0) and `C` (line 1). -/
theorem C12_lru_example (A B C b : Nat) (hAB : A ≠ B) (hAC : A ≠ C) (hBC : B ≠ C) :
    outcomes 2 [(0, A), (0, B), (0, A), (0, C)] (init_state ⟨0, 2, b⟩) =
      some [outcome.miss, outcome.miss, outcome.hit, outcome.miss_evict B] ∧
    run_at 2 [(0, A), (0, B), (0, A), (0, C)] (init_state ⟨0, 2, b⟩) =
      some ⟨⟨[⟨[⟨true, A, 1⟩, ⟨true, C, 0⟩]⟩]⟩, ⟨1, 3, 1⟩⟩ := by
  have hBA : B ≠ A := Ne.symm hAB
  have hCA : C ≠ A := Ne.symm hAC
  have hCB : C ≠ B := Ne.symm hBC
  constructor
  · rw [outcomes_refine 2 1 (by decide) _ (init_state ⟨0, 2, b⟩) (fun _ => [])
      (by simpa using init_tracks ⟨0, 2, b⟩) (by simp)]
    simp [lru_outcomes, lru_access, hAB, hAC, hBC, hBA, hCA, hCB]
  · simp [run_at, access_at, access_set, scan, scan_body, locals_init, init_state, init_cache,
      empty_line, hAB, hAC, hBC, hBA, hCA, hCB]

theorem C12_lru_example_witness :
    (10 : Nat) ≠ 11 ∧ (10 : Nat) ≠ 12 ∧ (11 : Nat) ≠ 12 ∧
    (outcomes 2 [(0, 10), (0, 11), (0, 10), (0, 12)] (init_state ⟨0, 2, 0⟩) =
      some [outcome.miss, outcome.miss, outcome.hit, outcome.miss_evict 11] ∧
    run_at 2 [(0, 10), (0, 11), (0, 10), (0, 12)] (init_state ⟨0, 2, 0⟩) =
      some ⟨⟨[⟨[⟨true, 10, 1⟩, ⟨true, 12, 0⟩]⟩]⟩, ⟨1, 3, 1⟩⟩) :=
  ⟨by decide, by decide, by decide, C12_lru_example 10 11 12 0 (by decide) (by decide)
    (by decide)⟩

/-- C13: with `s = 1`, `E = 1`, `b = 0` the addresses `0x10` and `0x20` decode to set index
0, and replaying the loads `0x10`, `0x20`, `0x10` from the state of `init_cache` ends with
`miss_count = 3`, `eviction_count = 2`, `hit_count = 0`. -/
theorem C13_scenario :
    set_index ⟨1, 1, 0⟩ 0x10 = 0 ∧ set_index ⟨1, 1, 0⟩ 0x20 = 0 ∧
    ∃ st, main_loop ⟨1, 1, 0⟩ [⟨'L', 0x10⟩, ⟨'L', 0x20⟩, ⟨'L', 0x10⟩] (init_state ⟨1, 1, 0⟩)
        = some st ∧
      st.stats.miss_count = 3 ∧ st.stats.eviction_count = 2 ∧ st.stats.hit_count = 0 :=
  ⟨by decide, by decide, _, rfl, by decide, by decide, by decide⟩

/-- C14: with `s = 0`, `E = 2`, `b = 0` (one set of two lines), replaying the loads `0x0`,
`0x8`, `0x0` from the state of `init_cache` ends with `miss_count = 2`, `hit_count = 1`,
`eviction_count = 0`. -/
theorem C14_scenario :
    ∃ st, main_loop ⟨0, 2, 0⟩ [⟨'L', 0x0⟩, ⟨'L', 0x8⟩, ⟨'L', 0x0⟩] (init_state ⟨0, 2, 0⟩)
        = some st ∧
      st.stats.miss_count = 2 ∧ st.stats.hit_count = 1 ∧ st.stats.eviction_count = 0 :=
  ⟨_, rfl, by decide, by decide, by decide⟩

/-- C15 as stated fails: with `s = -1`, `E = 1`, `b = 1` and a trace file given, one of the
parameters is negative, yet the test of line 136 does not reject the run. -/
theorem C15_counterexample :
    ((-1 : Int) ≤ 0) ∧ arguments_missing (-1) 1 1 (some "t.trace") = false ∧
    main (-1) 1 1 (some "t.trace") (some []) ≠ main_result.missing_arguments := by
  decide

/-- C15, amended: `main` takes the fatal exit of line 138, before `init_cache` and before any
access, if and only if at least one of `s`, `E`, `b` is zero or no trace file was given; when
all three are strictly positive and a trace file is given, validation passes. -/
theorem C15_validation (s E b : Int) (trace_file : Option String)
    (trace : Option (List record)) :
    (main s E b trace_file trace = main_result.missing_arguments ↔
      s = 0 ∨ E = 0 ∨ b = 0 ∨ trace_file = none) ∧
    (0 < s → 0 < E → 0 < b → trace_file ≠ none →
      main s E b trace_file trace ≠ main_result.missing_arguments) := by
  have key : arguments_missing s E b trace_file = true ↔
      s = 0 ∨ E = 0 ∨ b = 0 ∨ trace_file = none := by
    unfold arguments_missing
    cases trace_file <;> simp [or_assoc]
  have hmain : main s E b trace_file trace = main_result.missing_arguments ↔
      arguments_missing s E b trace_file = true := by
    unfold main
    split
    · simp [*]
    · cases trace <;> simp [*]
  refine ⟨hmain.trans key, ?_⟩
  intro hs hE hb ht hm
  rcases (hmain.trans key).1 hm with h | h | h | h
  · omega
  · omega
  · omega
  · exact ht h

theorem C15_validation_witness :
    (main 2 1 3 (some "t.trace") (some [⟨'L', 16⟩]) = main_result.missing_arguments ↔
      (2 : Int) = 0 ∨ (1 : Int) = 0 ∨ (3 : Int) = 0 ∨ (some "t.trace" : Option String) = none) ∧
    ((0 : Int) < 2 → (0 : Int) < 1 → (0 : Int) < 3 → (some "t.trace" : Option String) ≠ none →
      main 2 1 3 (some "t.trace") (some [⟨'L', 16⟩]) ≠ main_result.missing_arguments) :=
  C15_validation 2 1 3 (some "t.trace") (some [⟨'L', 16⟩])

/-- C16: for every `E >= 1`, every state reachable from `init_cache` and every address,
the target set has `E` lines and, whenever the scan of `access_cache` ends with `line_found`
unset (the eviction branch is taken), `oldest_line` is an index in `0 .. E-1`, never the
initial `-1`; the call stays inside the arrays and completes. -/
theorem C16_oldest_line_in_bounds (cfg : config) (hE : 1 ≤ cfg.E) (st : sim_state)
    (hr : reachable cfg st) (addr : Nat) :
    ∃ set, st.sim_cache.sets[set_index cfg addr]? = some set ∧ set.lines.length = cfg.E ∧
      ((scan (tag_of cfg addr) 0 (set.lines.take cfg.E) locals_init
          st.stats).2.1.line_found = false →
        0 ≤ (scan (tag_of cfg addr) 0 (set.lines.take cfg.E) locals_init
          st.stats).2.1.oldest_line ∧
        (scan (tag_of cfg addr) 0 (set.lines.take cfg.E) locals_init
          st.stats).2.1.oldest_line < (cfg.E : Int)) ∧
      ∃ st1, access_cache cfg addr st = some st1 := by
  obtain ⟨m, h⟩ := reachable_tracks cfg hE st hr
  obtain ⟨set, _, st1, hget, hat, _⟩ :=
    access_at_step cfg.E (2 ^ cfg.s) (set_index cfg addr) (tag_of cfg addr) st m hE h
      (set_index_lt cfg addr)
  have htr := h.2 _ set hget
  exact ⟨set, hget, tracks_length cfg.E set _ htr,
    scan_oldest_in_bounds cfg.E (tag_of cfg addr) set _ st.stats hE htr, st1, hat⟩

theorem C16_oldest_line_in_bounds_witness :
    1 ≤ (⟨1, 1, 1⟩ : config).E ∧
    reachable ⟨1, 1, 1⟩ ⟨⟨[⟨[⟨true, 4, 0⟩]⟩, ⟨[⟨false, 0, 0⟩]⟩]⟩, ⟨0, 1, 0⟩⟩ ∧
    ∃ set,
      (⟨⟨[⟨[⟨true, 4, 0⟩]⟩, ⟨[⟨false, 0, 0⟩]⟩]⟩, ⟨0, 1, 0⟩⟩ : sim_state).sim_cache.sets[
          set_index ⟨1, 1, 1⟩ 32]? = some set ∧
      set.lines.length = (⟨1, 1, 1⟩ : config).E ∧
      ((scan (tag_of ⟨1, 1, 1⟩ 32) 0 (set.lines.take (⟨1, 1, 1⟩ : config).E) locals_init
          (⟨⟨[⟨[⟨true, 4, 0⟩]⟩, ⟨[⟨false, 0, 0⟩]⟩]⟩, ⟨0, 1, 0⟩⟩ : sim_state).stats).2.1.line_found
            = false →
        0 ≤ (scan (tag_of ⟨1, 1, 1⟩ 32) 0 (set.lines.take (⟨1, 1, 1⟩ : config).E) locals_init
          (⟨⟨[⟨[⟨true, 4, 0⟩]⟩, ⟨[⟨false, 0, 0⟩]⟩]⟩, ⟨0, 1, 0⟩⟩ : sim_state).stats).2.1.oldest_line
          ∧
        (scan (tag_of ⟨1, 1, 1⟩ 32) 0 (set.lines.take (⟨1, 1, 1⟩ : config).E) locals_init
          (⟨⟨[⟨[⟨true, 4, 0⟩]⟩, ⟨[⟨false, 0, 0⟩]⟩]⟩, ⟨0, 1, 0⟩⟩ : sim_state).stats).2.1.oldest_line
          < ((⟨1, 1, 1⟩ : config).E : Int)) ∧
      ∃ st1, access_cache ⟨1, 1, 1⟩ 32
        ⟨⟨[⟨[⟨true, 4, 0⟩]⟩, ⟨[⟨false, 0, 0⟩]⟩]⟩, ⟨0, 1, 0⟩⟩ = some st1 :=
  ⟨by decide, ⟨[16], by decide⟩,
    C16_oldest_line_in_bounds ⟨1, 1, 1⟩ (by decide) _ ⟨[16], by decide⟩ 32⟩

/-- C17 as stated fails: with `s = 1`, `E = 2`, `b = 1` the loads of `0x0`, `0x4`, `0x0`,
`0x0` (tags 0, 1, 0, 0 of set 0) reach a state in which the valid line of tag 1 has
timestamp 2, which is not less than `E = 2`. -/
theorem C17_counterexample :
    run ⟨1, 2, 1⟩ [0x0, 0x4, 0x0, 0x0] (init_state ⟨1, 2, 1⟩) =
      some ⟨⟨[⟨[⟨true, 0, 0⟩, ⟨true, 1, 2⟩]⟩, ⟨[⟨false, 0, 0⟩, ⟨false, 0, 0⟩]⟩]⟩, ⟨2, 2, 0⟩⟩ ∧
    (⟨true, 1, 2⟩ : cache_line).valid = true ∧
    ¬ ((⟨true, 1, 2⟩ : cache_line).timestamp < ((⟨1, 2, 1⟩ : config).E : Int)) := by
  decide

/-- C17, amended: in every state reached from `init_cache` by a finite sequence of calls of
`access_cache`, `hit_count + miss_count` is the number of calls and every valid line's
timestamp is non-negative and less than that number (so it stays in the range of `int` in
every trace of fewer than `2 ^ 31` accesses). -/
theorem C17_timestamp_bound (cfg : config) (addrs : List Nat) (st : sim_state)
    (h : run cfg addrs (init_state cfg) = some st) :
    st.stats.hit_count + st.stats.miss_count = (addrs.length : Int) ∧
    ∀ (idx : Nat) (set : cache_set), st.sim_cache.sets[idx]? = some set →
      ∀ x ∈ set.lines, x.valid = true →
        0 ≤ x.timestamp ∧ x.timestamp < (addrs.length : Int) ∧
        (addrs.length < 2 ^ 31 → x.timestamp + 1 < 2 ^ 31) := by
  have hr : reachable cfg st := ⟨addrs, h⟩
  have hsum := run_sum cfg addrs (init_state cfg) st _ (init_tracks cfg) h
  have hsum2 : st.stats.hit_count + st.stats.miss_count = (addrs.length : Int) := by
    rw [hsum]; simp [init_state]
  obtain ⟨m, htr⟩ := reachable_tracks_all cfg st hr
  obtain ⟨_, hb⟩ := reachable_bound cfg st hr
  refine ⟨hsum2, ?_⟩
  intro idx set hset x hx hv
  have h1 := tracks_nonneg cfg.E set _ (htr.2 idx set hset) x hx
  have h2 := hb idx set hset x hx hv
  rw [hsum2] at h2
  refine ⟨h1, h2, ?_⟩
  intro hlt
  have : (addrs.length : Int) < 2 ^ 31 := by exact_mod_cast hlt
  omega

theorem C17_timestamp_bound_witness :
    run ⟨1, 2, 1⟩ [0x0, 0x4, 0x0, 0x0] (init_state ⟨1, 2, 1⟩) =
      some ⟨⟨[⟨[⟨true, 0, 0⟩, ⟨true, 1, 2⟩]⟩, ⟨[⟨false, 0, 0⟩, ⟨false, 0, 0⟩]⟩]⟩, ⟨2, 2, 0⟩⟩ ∧
    ((⟨⟨[⟨[⟨true, 0, 0⟩, ⟨true, 1, 2⟩]⟩, ⟨[⟨false, 0, 0⟩, ⟨false, 0, 0⟩]⟩]⟩, ⟨2, 2, 0⟩⟩ :
        sim_state).stats.hit_count +
      (⟨⟨[⟨[⟨true, 0, 0⟩, ⟨true, 1, 2⟩]⟩, ⟨[⟨false, 0, 0⟩, ⟨false, 0, 0⟩]⟩]⟩, ⟨2, 2, 0⟩⟩ :
        sim_state).stats.miss_count = (([0x0, 0x4, 0x0, 0x0] : List Nat).length : Int) ∧
    ∀ (idx : Nat) (set : cache_set),
      (⟨⟨[⟨[⟨true, 0, 0⟩, ⟨true, 1, 2⟩]⟩, ⟨[⟨false, 0, 0⟩, ⟨false, 0, 0⟩]⟩]⟩, ⟨2, 2, 0⟩⟩ :
        sim_state).sim_cache.sets[idx]? = some set →
      ∀ x ∈ set.lines, x.valid = true →
        0 ≤ x.timestamp ∧ x.timestamp < (([0x0, 0x4, 0x0, 0x0] : List Nat).length : Int) ∧
        (([0x0, 0x4, 0x0, 0x0] : List Nat).length < 2 ^ 31 → x.timestamp + 1 < 2 ^ 31)) :=
  ⟨by decide, C17_timestamp_bound ⟨1, 2, 1⟩ [0x0, 0x4, 0x0, 0x0] _ (by decide)⟩

/-- C18: in every state reachable from `init_cache`, the valid lines of each set come first:
if line `i` is valid, every line `j < i` of the same set is valid.  Consequently a call of
`access_cache` that completes is counted either as one hit or as one miss, never as both. -/
theorem C18_valid_lines_first (cfg : config) (st : sim_state) (hr : reachable cfg st) :
    (∀ (idx : Nat) (set : cache_set), st.sim_cache.sets[idx]? = some set →
      ∀ (i j : Nat) (x y : cache_line), j < i → set.lines[i]? = some x → x.valid = true →
        set.lines[j]? = some y → y.valid = true) ∧
    ∀ (addr : Nat) (st1 : sim_state), access_cache cfg addr st = some st1 →
      (st1.stats.hit_count = st.stats.hit_count + 1 ∧
        st1.stats.miss_count = st.stats.miss_count) ∨
      (st1.stats.hit_count = st.stats.hit_count ∧
        st1.stats.miss_count = st.stats.miss_count + 1) := by
  obtain ⟨m, htr⟩ := reachable_tracks_all cfg st hr
  constructor
  · intro idx set hset i j x y hji hx hv hy
    exact tracks_valid_first cfg.E set _ (htr.2 idx set hset) i j x y hji hx hv hy
  · intro addr st1 hacc
    have hE := access_cache_pos cfg addr st st1 hacc
    obtain ⟨st2, o, m1, hacc2, hst, _⟩ := access_cache_step cfg addr st m hE htr
    rw [hacc] at hacc2
    cases hacc2
    rw [hst]
    cases o <;> simp [record_outcome]

theorem C18_valid_lines_first_witness :
    reachable ⟨1, 2, 1⟩
      ⟨⟨[⟨[⟨true, 0, 0⟩, ⟨false, 0, 0⟩]⟩, ⟨[⟨false, 0, 0⟩, ⟨false, 0, 0⟩]⟩]⟩, ⟨0, 1, 0⟩⟩ ∧
    ((∀ (idx : Nat) (set : cache_set),
      (⟨⟨[⟨[⟨true, 0, 0⟩, ⟨false, 0, 0⟩]⟩, ⟨[⟨false, 0, 0⟩, ⟨false, 0, 0⟩]⟩]⟩, ⟨0, 1, 0⟩⟩ :
        sim_state).sim_cache.sets[idx]? = some set →
      ∀ (i j : Nat) (x y : cache_line), j < i → set.lines[i]? = some x → x.valid = true →
        set.lines[j]? = some y → y.valid = true) ∧
    ∀ (addr : Nat) (st1 : sim_state),
      access_cache ⟨1, 2, 1⟩ addr
        ⟨⟨[⟨[⟨true, 0, 0⟩, ⟨false, 0, 0⟩]⟩, ⟨[⟨false, 0, 0⟩, ⟨false, 0, 0⟩]⟩]⟩, ⟨0, 1, 0⟩⟩ =
          some st1 →
      (st1.stats.hit_count =
          (⟨⟨[⟨[⟨true, 0, 0⟩, ⟨false, 0, 0⟩]⟩, ⟨[⟨false, 0, 0⟩, ⟨false, 0, 0⟩]⟩]⟩, ⟨0, 1, 0⟩⟩ :
            sim_state).stats.hit_count + 1 ∧
        st1.stats.miss_count =
          (⟨⟨[⟨[⟨true, 0, 0⟩, ⟨false, 0, 0⟩]⟩, ⟨[⟨false, 0, 0⟩, ⟨false, 0, 0⟩]⟩]⟩, ⟨0, 1, 0⟩⟩ :
            sim_state).stats.miss_count) ∨
      (st1.stats.hit_count =
          (⟨⟨[⟨[⟨true, 0, 0⟩, ⟨false, 0, 0⟩]⟩, ⟨[⟨false, 0, 0⟩, ⟨false, 0, 0⟩]⟩]⟩, ⟨0, 1, 0⟩⟩ :
            sim_state).stats.hit_count ∧
        st1.stats.miss_count =
          (⟨⟨[⟨[⟨true, 0, 0⟩, ⟨false, 0, 0⟩]⟩, ⟨[⟨false, 0, 0⟩, ⟨false, 0, 0⟩]⟩]⟩, ⟨0, 1, 0⟩⟩ :
            sim_state).stats.miss_count + 1)) :=
  ⟨⟨[0], by decide⟩, C18_valid_lines_first ⟨1, 2, 1⟩ _ ⟨[0], by decide⟩⟩

/-- C19: in every state reached from `init_cache` by a sequence of calls of `access_cache`
(timestamps being exact integers), the valid lines of each set have pairwise distinct
timestamps; in a set that has been accessed, exactly one valid line has timestamp 0 and it
holds the tag of the most recent access to that set; and whenever the eviction branch picks
`oldest_line`, every other line of the set has a strictly smaller timestamp, so the
lowest-index tie-break does not decide the victim. -/
theorem C19_distinct_timestamps (cfg : config) (addrs : List Nat) (st : sim_state)
    (h : run cfg addrs (init_state cfg) = some st) :
    (∀ (idx : Nat) (set : cache_set), st.sim_cache.sets[idx]? = some set →
      ∀ (i j : Nat) (x y : cache_line), set.lines[i]? = some x → set.lines[j]? = some y →
        x.valid = true → y.valid = true → x.timestamp = y.timestamp → i = j) ∧
    (∀ (pre : List Nat) (a : Nat) (post : List Nat), addrs = pre ++ a :: post →
      (∀ x ∈ post, set_index cfg x ≠ set_index cfg a) →
      ∃ (set : cache_set) (k : Nat) (line : cache_line),
        st.sim_cache.sets[set_index cfg a]? = some set ∧ set.lines[k]? = some line ∧
        holds (tag_of cfg a) line ∧ line.timestamp = 0 ∧
        ∀ (k1 : Nat) (z : cache_line), set.lines[k1]? = some z → z.valid = true →
          z.timestamp = 0 → k1 = k) ∧
    (∀ (addr : Nat) (set : cache_set) (k : Nat) (v : cache_line),
      st.sim_cache.sets[set_index cfg addr]? = some set →
      victim_line cfg.E (tag_of cfg addr) set st.stats = some k → set.lines[k]? = some v →
      ∀ (j : Nat) (y : cache_line), j ≠ k → set.lines[j]? = some y →
        y.timestamp < v.timestamp) := by
  have hr : reachable cfg st := ⟨addrs, h⟩
  obtain ⟨m, htr⟩ := reachable_tracks_all cfg st hr
  have hdist : ∀ (idx : Nat) (set : cache_set), st.sim_cache.sets[idx]? = some set →
      ∀ (i j : Nat) (x y : cache_line), set.lines[i]? = some x → set.lines[j]? = some y →
        x.valid = true → y.valid = true → x.timestamp = y.timestamp → i = j :=
    fun idx set hset i j x y hx hy hxv hyv e =>
      tracks_distinct cfg.E set _ (htr.2 idx set hset) i j x y hx hy hxv hyv e
  refine ⟨hdist, ?_, ?_⟩
  · intro pre a post hsplit hpost
    rw [hsplit] at h
    obtain ⟨st0, hrun0, hrun1⟩ := run_append cfg pre (a :: post) _ _ h
    simp only [run] at hrun1
    cases hacc : access_cache cfg a st0 with
    | none => rw [hacc] at hrun1; cases hrun1
    | some st1 =>
      rw [hacc] at hrun1
      obtain ⟨m0, htr0⟩ := reachable_tracks_all cfg st0 ⟨pre, hrun0⟩
      obtain ⟨set1, x, hset1, hx, hholds, hx0⟩ := access_cache_fresh cfg a st0 st1 m0 htr0 hacc
      have hframe := run_frame cfg (set_index cfg a) post st1 st hrun1 hpost
      rw [hset1] at hframe
      obtain ⟨k, hk⟩ := List.mem_iff_getElem?.1 hx
      refine ⟨set1, k, x, hframe, hk, hholds, hx0, ?_⟩
      intro k1 z hz hzv hz0
      exact hdist _ set1 hframe k1 k z x hz hk hzv hholds.1 (by rw [hz0, hx0])
  · intro addr set k v hset hvl hk
    exact victim_strict cfg.E (tag_of cfg addr) set _ st.stats (htr.2 _ set hset) k v hvl hk

theorem C19_distinct_timestamps_witness :
    run ⟨1, 2, 1⟩ [0x0, 0x4, 0x2, 0x0] (init_state ⟨1, 2, 1⟩) =
      some ⟨⟨[⟨[⟨true, 0, 0⟩, ⟨true, 1, 1⟩]⟩, ⟨[⟨true, 0, 0⟩, ⟨false, 0, 0⟩]⟩]⟩, ⟨1, 3, 0⟩⟩ ∧
    ((∀ (idx : Nat) (set : cache_set),
      (⟨⟨[⟨[⟨true, 0, 0⟩, ⟨true, 1, 1⟩]⟩, ⟨[⟨true, 0, 0⟩, ⟨false, 0, 0⟩]⟩]⟩, ⟨1, 3, 0⟩⟩ :
        sim_state).sim_cache.sets[idx]? = some set →
      ∀ (i j : Nat) (x y : cache_line), set.lines[i]? = some x → set.lines[j]? = some y →
        x.valid = true → y.valid = true → x.timestamp = y.timestamp → i = j) ∧
    (∀ (pre : List Nat) (a : Nat) (post : List Nat), [0x0, 0x4, 0x2, 0x0] = pre ++ a :: post →
      (∀ x ∈ post, set_index ⟨1, 2, 1⟩ x ≠ set_index ⟨1, 2, 1⟩ a) →
      ∃ (set : cache_set) (k : Nat) (line : cache_line),
        (⟨⟨[⟨[⟨true, 0, 0⟩, ⟨true, 1, 1⟩]⟩, ⟨[⟨true, 0, 0⟩, ⟨false, 0, 0⟩]⟩]⟩, ⟨1, 3, 0⟩⟩ :
          sim_state).sim_cache.sets[set_index ⟨1, 2, 1⟩ a]? = some set ∧
        set.lines[k]? = some line ∧
        holds (tag_of ⟨1, 2, 1⟩ a) line ∧ line.timestamp = 0 ∧
        ∀ (k1 : Nat) (z : cache_line), set.lines[k1]? = some z → z.valid = true →
          z.timestamp = 0 → k1 = k) ∧
    (∀ (addr : Nat) (set : cache_set) (k : Nat) (v : cache_line),
      (⟨⟨[⟨[⟨true, 0, 0⟩, ⟨true, 1, 1⟩]⟩, ⟨[⟨true, 0, 0⟩, ⟨false, 0, 0⟩]⟩]⟩, ⟨1, 3, 0⟩⟩ :
        sim_state).sim_cache.sets[set_index ⟨1, 2, 1⟩ addr]? = some set →
      victim_line (⟨1, 2, 1⟩ : config).E (tag_of ⟨1, 2, 1⟩ addr) set
        (⟨⟨[⟨[⟨true, 0, 0⟩, ⟨true, 1, 1⟩]⟩, ⟨[⟨true, 0, 0⟩, ⟨false, 0, 0⟩]⟩]⟩, ⟨1, 3, 0⟩⟩ :
          sim_state).stats = some k →
      set.lines[k]? = some v →
      ∀ (j : Nat) (y : cache_line), j ≠ k → set.lines[j]? = some y →
        y.timestamp < v.timestamp)) :=
  ⟨by decide, C19_distinct_timestamps ⟨1, 2, 1⟩ [0x0, 0x4, 0x2, 0x0] _ (by decide)⟩

/-- C20: after the replay of any finite trace from the state of `init_cache` with the
counters at 0 (the replay completes when `E >= 1`), `miss_count - eviction_count` is the
number of valid lines in the whole cache; hence `eviction_count <= miss_count` and
`miss_count - eviction_count <= 2 ^ s * E`. -/
theorem C20_valid_line_count (cfg : config) (trace : List record) :
    (1 ≤ cfg.E → ∃ st, main_loop cfg trace (init_state cfg) = some st) ∧
    ∀ st, main_loop cfg trace (init_state cfg) = some st →
      st.stats.miss_count - st.stats.eviction_count = (valid_lines st.sim_cache : Int) ∧
      st.stats.eviction_count ≤ st.stats.miss_count ∧
      st.stats.miss_count - st.stats.eviction_count ≤ ((2 ^ cfg.s * cfg.E : Nat) : Int) := by
  constructor
  · intro hE
    obtain ⟨st1, _, hloop, _⟩ :=
      main_loop_counts cfg hE trace (init_state cfg) _ (init_tracks cfg)
    exact ⟨st1, hloop⟩
  · intro st h
    have hr := main_loop_reachable cfg trace st h
    have hc := reachable_count cfg st hr
    obtain ⟨m, htr⟩ := reachable_tracks_all cfg st hr
    have hle := valid_lines_le cfg.E (2 ^ cfg.s) st m htr
    refine ⟨hc, by omega, ?_⟩
    rw [hc]
    exact_mod_cast hle

theorem C20_valid_line_count_witness :
    (1 ≤ (⟨1, 1, 1⟩ : config).E →
      ∃ st, main_loop ⟨1, 1, 1⟩ [⟨'L', 16⟩, ⟨'M', 32⟩, ⟨'S', 2⟩] (init_state ⟨1, 1, 1⟩)
        = some st) ∧
    ∀ st, main_loop ⟨1, 1, 1⟩ [⟨'L', 16⟩, ⟨'M', 32⟩, ⟨'S', 2⟩] (init_state ⟨1, 1, 1⟩)
        = some st →
      st.stats.miss_count - st.stats.eviction_count = (valid_lines st.sim_cache : Int) ∧
      st.stats.eviction_count ≤ st.stats.miss_count ∧
      st.stats.miss_count - st.stats.eviction_count ≤
        ((2 ^ (⟨1, 1, 1⟩ : config).s * (⟨1, 1, 1⟩ : config).E : Nat) : Int) :=
  C20_valid_line_count ⟨1, 1, 1⟩ [⟨'L', 16⟩, ⟨'M', 32⟩, ⟨'S', 2⟩]

end Csim
